import Mathlib

/-!
Shallow embedding of the floor-plan geometry kernel (`geometry.py`) and the
adjacency/containment engine (`cubicasa.py`) of the 2021-spring-studio-lab
repository, together with proofs about the claims of its specification.

Conventions of the embedding:

* Python floats are modelled as exact rationals (`ℚ`).  The special values
  `math.inf`, `-math.inf` and `math.nan` that the source produces in
  `Line.slope`, `Line.intercept`, `Line.solve_for_y` and `Domain.position`
  are modelled by the inductive type `FloatVal`.
* A Python function that can raise an exception on some inputs is modelled
  as an `Option`-valued function; `none` is the raised exception.
* Comparisons `math.dist p q < tolerance` are embedded as the exactly
  equivalent rational comparison `0 < tolerance ∧ sqDist p q < tolerance ^ 2`
  (the Euclidean distance is the square root of `sqDist`, which is
  non-negative, so the two comparisons agree on every input).
-/

/-- Embedding of `geometry.ABS_TOL = 0.01`. -/
def ABS_TOL : ℚ := 1 / 100

/-- Embedding of `geometry.isclose(a, b)`, i.e. Python
`math.isclose(a, b, rel_tol=1e-09, abs_tol=0.01)` on finite values:
`abs(a-b) <= max(rel_tol * max(abs(a), abs(b)), abs_tol)`. -/
def isclose (a b : ℚ) : Bool :=
  |a - b| ≤ max ((1 / 1000000000) * max |a| |b|) ABS_TOL

/-- Model of the Python float values produced by the geometry module: a
finite value, `math.inf`, `-math.inf`, or `math.nan`. -/
inductive FloatVal where
  | val (q : ℚ)
  | pinf
  | ninf
  | nan
deriving DecidableEq, Repr

namespace FloatVal

/-- Embedding of `math.isinf` on a `FloatVal`. -/
def isInf : FloatVal → Bool
  | pinf => true
  | ninf => true
  | _ => false

/-- Embedding of `math.isclose(a, b, rel_tol=1e-09, abs_tol=0.01)` on possibly
non-finite values: equal infinities compare close, `nan` is close to nothing,
an infinity is not close to a finite value. -/
def iscloseF : FloatVal → FloatVal → Bool
  | val a, val b => isclose a b
  | pinf, pinf => true
  | ninf, ninf => true
  | _, _ => false

/-- Embedding of the Python comparison `v < 0` on a float (false for `nan`). -/
def ltZero : FloatVal → Bool
  | val q => q < 0
  | ninf => true
  | _ => false

/-- Embedding of the Python comparison `v > 1` on a float (false for `nan`). -/
def gtOne : FloatVal → Bool
  | val q => 1 < q
  | pinf => true
  | _ => false

/-- Embedding of the Python test `v >= 0 and v < 1` on a float
(false for `nan` and for either infinity). -/
def ge0lt1 : FloatVal → Bool
  | val q => 0 ≤ q ∧ q < 1
  | _ => false

end FloatVal

/-- Embedding of `geometry.Point`, a named tuple of two coordinates. -/
structure Point where
  x : ℚ
  y : ℚ
deriving DecidableEq, Repr

/-- Squared Euclidean distance between two points: `math.dist p q` squared. -/
def sqDist (p q : Point) : ℚ :=
  (p.x - q.x) ^ 2 + (p.y - q.y) ^ 2

/-- Embedding of `geometry.Line`: the line `a*x + b*y + c = 0`. -/
structure Line where
  a : ℚ
  b : ℚ
  c : ℚ
deriving DecidableEq, Repr

namespace Line

/-- Embedding of `Line.is_horizontal`. -/
def is_horizontal (l : Line) : Bool := l.a = 0

/-- Embedding of `Line.is_vertical`. -/
def is_vertical (l : Line) : Bool := l.b = 0

/-- Embedding of `Line.slope`: `math.inf` for a vertical line, else `-a / b`. -/
def slope (l : Line) : FloatVal :=
  if l.b = 0 then .pinf else .val (-l.a / l.b)

/-- Embedding of `Line.perpendicular_slope`: `math.inf` for a horizontal
line, else `b / a`. -/
def perpendicular_slope (l : Line) : FloatVal :=
  if l.a = 0 then .pinf else .val (l.b / l.a)

/-- Embedding of `Line.intercept`: `math.nan` for a vertical line, else
`-c / b`. -/
def intercept (l : Line) : FloatVal :=
  if l.b = 0 then .nan else .val (-l.c / l.b)

/-- Embedding of `Line.__eq__`: slopes close and intercepts close.  Note that
two vertical lines both have `nan` intercept and `math.isclose(nan, nan)` is
false, so two vertical lines never compare equal in the source. -/
def eqB (l m : Line) : Bool :=
  FloatVal.iscloseF l.slope m.slope && FloatVal.iscloseF l.intercept m.intercept

/-- Embedding of `Line.solve_for_y(x)`: for a vertical line, `math.inf` when
`x == -c` (note: the source compares with `-c`, not with the line's actual
x-coordinate `-c / a`) and `math.nan` otherwise; else `(a*x + c) / -b`. -/
def solve_for_y (l : Line) (x : ℚ) : FloatVal :=
  if l.b = 0 then (if x = -l.c then .pinf else .nan)
  else .val ((l.a * x + l.c) / -l.b)

/-- Embedding of `Line.contains_point(point)`. -/
def contains_pointB (l : Line) (p : Point) : Bool :=
  isclose (l.a * p.x + l.b * p.y + l.c) 0

/-- Embedding of `Line.intersect(other)` by Cramer's rule; `None` when the
determinant is exactly zero. -/
def intersectL (l m : Line) : Option Point :=
  let nx := l.b * m.c - m.b * l.c
  let ny := l.c * m.a - m.c * l.a
  let d := l.a * m.b - m.a * l.b
  if d ≠ 0 then some ⟨nx / d, ny / d⟩ else none

/-- Embedding of `Line.through_points(p1, p2)`: raises (`none`) when the two
points coincide, otherwise the line with `a = y1-y2`, `b = x2-x1`,
`c = x1*y2 - x2*y1`. -/
def through_points (p1 p2 : Point) : Option Line :=
  if p1 = p2 then none
  else some ⟨p1.y - p2.y, p2.x - p1.x, p1.x * p2.y - p2.x * p1.y⟩

/-- Embedding of `Line.through_point(point, slope)`: an infinite slope gives
direction `(0, 1)`, a finite slope `m` gives `(1, m)`.  A `nan` slope is
modelled as `none`; it cannot arise from `perpendicular_slope`, the only
slope fed to this constructor by the source. -/
def through_point (p : Point) (s : FloatVal) : Option Line :=
  match s with
  | .pinf => through_points p ⟨p.x, p.y + 1⟩
  | .ninf => through_points p ⟨p.x, p.y + 1⟩
  | .val m => through_points p ⟨p.x + 1, p.y + m⟩
  | .nan => none

/-- Embedding of `Line.closest_to_point(point)`: intersect with the
perpendicular line through the point.  `none` covers both the `None`
returned when the intersection is degenerate (the caller then raises) and
the impossible `nan`-slope case. -/
def closest_to_point (l : Line) (p : Point) : Option Point := do
  let perpendicular ← through_point p l.perpendicular_slope
  intersectL l perpendicular

/-- Embedding of `Line.distance_to_point(point)`.  The source body is
`abs(self.a * point.x + self.b * point.y + c) / math.hypot(self.a, self.b)`
where the bare name `c` is not bound anywhere (the field is `self.c`), so
every call raises `NameError`; the function never returns a value. -/
def distance_to_point (_ : Line) (_ : Point) : Option ℚ := none

end Line

/-- Embedding of `geometry.Domain`, an interval given by two endpoint values
(the source's fields are named `start` and `end`; `end` is a Lean keyword,
so the second field is named `stop` here). -/
structure Domain where
  start : ℚ
  stop : ℚ
deriving DecidableEq, Repr

namespace Domain

/-- Embedding of `Domain.min`. -/
def dmin (d : Domain) : ℚ := min d.start d.stop

/-- Embedding of `Domain.max`. -/
def dmax (d : Domain) : ℚ := max d.start d.stop

/-- Embedding of `Domain.contains(value)`. -/
def containsB (d : Domain) (v : ℚ) : Bool :=
  (v ≥ d.dmin && v ≤ d.dmax) || isclose v d.dmin || isclose v d.dmax

/-- Embedding of `Domain.position(value)`: for a degenerate domain,
`math.inf` when the domain contains the value and `-math.inf` otherwise;
else the affine position `(value - start) / (end - start)`. -/
def positionF (d : Domain) (v : ℚ) : FloatVal :=
  if d.stop = d.start then (if d.containsB v then .pinf else .ninf)
  else .val ((v - d.start) / (d.stop - d.start))

end Domain

/-- Embedding of `geometry.LineSegment` (the source's fields are named
`start` and `end`; `end` is a Lean keyword, so the second field is named
`endp` here). -/
structure LineSegment where
  start : Point
  endp : Point
deriving DecidableEq, Repr

namespace LineSegment

/-- Embedding of the cached property `LineSegment.x`. -/
def xDom (s : LineSegment) : Domain := ⟨s.start.x, s.endp.x⟩

/-- Embedding of the cached property `LineSegment.y`. -/
def yDom (s : LineSegment) : Domain := ⟨s.start.y, s.endp.y⟩

/-- Embedding of the cached property `LineSegment.line`; `none` is the
exception raised by `Line.through_points` on a degenerate segment. -/
def lineS (s : LineSegment) : Option Line :=
  Line.through_points s.start s.endp

/-- Embedding of `LineSegment.position(point)`: the result is a float
(`some`) or the implicit `None` fall-through (`none`, "point is not on the
line"). -/
def positionP (s : LineSegment) (p : Point) : Option FloatVal :=
  let px := s.xDom.positionF p.x
  let py := s.yDom.positionF p.y
  if px.isInf then some py
  else if py.isInf then some px
  else
    match px, py with
    | .val a, .val b => if isclose a b then some (.val a) else none
    | _, _ => none

/-- Embedding of `LineSegment._is_in_range(point)`. -/
def is_in_range (s : LineSegment) (p : Point) : Bool :=
  s.xDom.containsB p.x && s.yDom.containsB p.y

/-- Embedding of `LineSegment.contains_point(point)`; `none` is the
exception raised when the segment is degenerate (its `line` raises). -/
def contains_pointS (s : LineSegment) (p : Point) : Option Bool := do
  let l ← s.lineS
  return (l.contains_pointB p && s.is_in_range p)

/-- Embedding of `LineSegment.closest_to_point(point)`: project on the
carrier line, then clamp using `position`.  `none` covers the exceptions
(degenerate segment, no perpendicular intersection, position `None`). -/
def closest_to_pointS (s : LineSegment) (p : Point) : Option Point := do
  let l ← s.lineS
  let closest ← l.closest_to_point p
  let pos ← s.positionP closest
  if pos.ltZero then return s.start
  else if pos.gtOne then return s.endp
  else return closest

/-- Squared version of `LineSegment.distance_to_point(point)`: the squared
distance from the point to the closest point on the segment.  The source
returns `math.dist(point, closest)`, the square root of this value. -/
def distSqS (s : LineSegment) (p : Point) : Option ℚ :=
  (s.closest_to_pointS p).map (sqDist p)

/-- Embedding of the comparison `self.distance_to_point(point) < tolerance`
from `LineSegment.is_close`: since the distance is the non-negative square
root of `distSqS`, the comparison holds exactly when the tolerance is
positive and the squared distance is below its square. -/
def distLtS (s : LineSegment) (p : Point) (tolerance : ℚ) : Option Bool :=
  (s.distSqS p).map (fun d2 => 0 < tolerance && d2 < tolerance ^ 2)

end LineSegment

/-- Result of `LineSegment.intersect(other)`: a line segment, a single
point, or `None`. -/
inductive SegInter where
  | seg (s : LineSegment)
  | pt (p : Point)
  | nothing
deriving DecidableEq, Repr

namespace LineSegment

/-- Embedding of the collinear-overlap loop of `LineSegment.intersect`: walk
the four `(edge, point)` pairs, collect the points contained in the paired
edge, and return a segment as soon as two points have been collected.
`found` holds the first collected endpoint, mirroring the `endpoints` list. -/
def collectOverlap : List (LineSegment × Point) → Option Point → Option SegInter
  | [], _ => some .nothing
  | (edge, point) :: rest, found => do
    let c ← edge.contains_pointS point
    if c then
      match found with
      | none => collectOverlap rest (some point)
      | some p0 => some (.seg ⟨p0, point⟩)
    else collectOverlap rest found

/-- Embedding of `LineSegment.intersect(other)`: if the carrier lines
compare equal (tolerant `Line.__eq__`), compute the overlap from shared
endpoints; otherwise intersect the carrier lines and keep the point only if
it lies in the other segment's range.  `none` is an exception (degenerate
segment). -/
def intersectS (s o : LineSegment) : Option SegInter := do
  let sl ← s.lineS
  let ol ← o.lineS
  if sl.eqB ol then
    collectOverlap [(s, o.start), (s, o.endp), (o, s.start), (o, s.endp)] none
  else
    match Line.intersectL sl ol with
    | some p => if o.is_in_range p then some (.pt p) else some .nothing
    | none => some .nothing

/-- Embedding of the counting loop of `LineSegment.is_close`: walk the four
`(edge, point)` pairs, count the pairs whose distance is below the
tolerance, and return `True` as soon as the count reaches two. -/
def isCloseAux (tolerance : ℚ) : List (LineSegment × Point) → ℕ → Option Bool
  | [], _ => some false
  | (edge, point) :: rest, close_points => do
    let b ← edge.distLtS point tolerance
    if b then
      if close_points + 1 = 2 then some true
      else isCloseAux tolerance rest (close_points + 1)
    else isCloseAux tolerance rest close_points

/-- Embedding of `LineSegment.is_close(other, tolerance)`. -/
def is_closeS (s o : LineSegment) (tolerance : ℚ) : Option Bool :=
  isCloseAux tolerance [(s, o.start), (s, o.endp), (o, s.start), (o, s.endp)] 0

end LineSegment

/-- Embedding of `geometry.Polygon`. -/
structure Polygon where
  vertices : List Point
deriving DecidableEq, Repr

namespace Polygon

/-- Embedding of `Polygon.pairs_of_vertices`: consecutive pairs plus the
closing pair `(vertices[-1], vertices[0])`.  The source raises `IndexError`
on an empty vertex list; here the empty list gives `[]`, and every theorem
about a polygon assumes a non-empty vertex list. -/
def pairs_of_vertices : Polygon → List (Point × Point)
  | ⟨[]⟩ => []
  | ⟨v :: t⟩ =>
    (v :: t).zip t ++ [(List.getLast (v :: t) (List.cons_ne_nil v t), v)]

/-- Embedding of `Polygon.edges`. -/
def edges (p : Polygon) : List LineSegment :=
  p.pairs_of_vertices.map (fun q => ⟨q.1, q.2⟩)

/-- Embedding of the fold inside `Polygon.area`:
`reduce(lambda a, p: a + (p[0].x + p[1].x) * (p[0].y - p[1].y), pairs, 0.0)`. -/
def shoelaceFold (p : Polygon) : ℚ :=
  p.pairs_of_vertices.foldl (fun a q => a + (q.1.x + q.2.x) * (q.1.y - q.2.y)) 0

/-- Embedding of `Polygon.area()`: the absolute value of half the shoelace
fold. -/
def area (p : Polygon) : ℚ := |p.shoelaceFold / 2|

/-- Euclidean distance `math.dist`, used by `Polygon.perimeter`. -/
noncomputable def distR (p q : Point) : ℝ :=
  Real.sqrt (((p.x : ℝ) - q.x) ^ 2 + ((p.y : ℝ) - q.y) ^ 2)

/-- Embedding of `Polygon.perimeter()`:
`reduce(lambda d, p: d + math.dist(*p), pairs, 0.0)`. -/
noncomputable def perimeter (p : Polygon) : ℝ :=
  p.pairs_of_vertices.foldl (fun d q => d + distR q.1 q.2) 0

/-- Embedding of the crossing-counting loop of `Polygon.contains_point`:
for each edge, solve the carrier line for y at the point's x; if the result
is neither `nan` nor `inf` and is at least the point's y, count a crossing
when the edge-local position of the intersection lies in `[0, 1)`.  `none`
is an exception (degenerate edge, or a `None` position compared to a
number). -/
def containsAux (p : Point) : List LineSegment → ℕ → Option ℕ
  | [], crossings => some crossings
  | edge :: rest, crossings => do
    let l ← edge.lineS
    match l.solve_for_y p.x with
    | .val y =>
      if y ≥ p.y then
        match edge.positionP ⟨p.x, y⟩ with
        | none => none
        | some py =>
          containsAux p rest (if py.ge0lt1 then crossings + 1 else crossings)
      else containsAux p rest crossings
    | _ => containsAux p rest crossings

/-- Embedding of `Polygon.contains_point(point)`: the crossing count is odd. -/
def contains_point (poly : Polygon) (p : Point) : Option Bool :=
  (containsAux p poly.edges 0).map (fun crossings => crossings % 2 = 1)

end Polygon


/-!
Adjacency-graph engine (`cubicasa.py`).  A spatial entity is identified by
a numeric id (standing for Python object identity) and carries the edge
list of its polygon together with its kind, which determines the
eligible-edge policy (`PlanObject.eligible_edges_with_indexes` for rooms,
`Divider.eligible_edges_with_indexes` for walls/railings).  The adjacency
maps of all entities are modelled as one global list of `AdjRec` records;
the `AdjacencyList` of entity `A` is the sublist of records with
`owner = A`.  `Wall.add_adjacency` appends the same record as the base
class before its opening side effects, and those side effects never touch
an adjacency list, so the record-level engine is the same for walls and
rooms; the opening side effects are modelled separately below. -/

/-- Embedding of `cubicasa.CLOSE_EDGE_TOLERANCE = 1.0`. -/
def CLOSE_EDGE_TOLERANCE : ℚ := 1

/-- Kind of a plan entity, deciding the eligible-edge policy. -/
inductive EntityKind where
  | room
  | divider
deriving DecidableEq, Repr

/-- A plan entity: its kind and the edges of its polygon. -/
structure Entity where
  kind : EntityKind
  edges : List LineSegment
deriving DecidableEq, Repr

namespace Entity

/-- Embedding of `Divider.eligible_edges`: the 0th and 2nd edges when the
polygon has exactly 4 edges, else no edges. -/
def divider_eligible_edges (e : Entity) : List LineSegment :=
  if h : e.edges.length = 4 then
    [e.edges.get ⟨0, by omega⟩, e.edges.get ⟨2, by omega⟩]
  else []

/-- Embedding of `eligible_edges_with_indexes`: `enumerate(self.edges)` for
a room (`PlanObject`), and index lookup of each eligible edge for a divider
(`Divider`; note the source looks the index up with `list.index`, which
returns the first position of an equal edge). -/
def eligiblePairs (e : Entity) : List (ℕ × LineSegment) :=
  match e.kind with
  | .room => e.edges.enum
  | .divider => e.divider_eligible_edges.map (fun s => (e.edges.indexOf s, s))

end Entity

/-- Embedding of `cubicasa.AdjacencyInfo` together with the identity of the
owning entity and of the referenced entity: entity `owner` holds, in its
`AdjacencyList` under key `other`, the info
`(self_edge_index, object_edge_index, intersection)`.  The `intersection`
is a segment for pass-1 records and `None` for pass-2 records. -/
structure AdjRec where
  owner : ℕ
  other : ℕ
  self_edge_index : ℕ
  object_edge_index : ℕ
  intersection : Option LineSegment
deriving DecidableEq, Repr

/-- The mirrored record: the one the partner entity gains in the same
`add_adjacency` pair. -/
def AdjRec.mirror (r : AdjRec) : AdjRec :=
  ⟨r.other, r.owner, r.object_edge_index, r.self_edge_index, r.intersection⟩

/-- Global adjacency state: every record held by any entity. -/
abbrev AdjState := List AdjRec

/-- Embedding of `PlanObject.add_adjacency`: append one record to the
owner's adjacency list. -/
def add_adjacency (st : AdjState) (owner other self_edge_index object_edge_index : ℕ)
    (intersection : Option LineSegment) : AdjState :=
  st ++ [⟨owner, other, self_edge_index, object_edge_index, intersection⟩]

/-- Embedding of `PlanObject.edges_without_adjacencies`: the eligible edges
of the entity whose index carries no record in the entity's adjacency
list.  (For every initiator in the floor run — a room — the eligible pairs
are `enumerate(self.edges)`, whose keys are distinct, so the dict of the
source is faithfully a filtered list.) -/
def edges_without_adjacencies (selfId : ℕ) (e : Entity) (st : AdjState) :
    List LineSegment :=
  (e.eligiblePairs.filter (fun q =>
    ¬ st.any (fun r => r.owner = selfId && r.self_edge_index = q.1))).map Prod.snd

/-- Innermost loop of `PlanObject.find_adjacencies`: one edge of `self`
against every eligible edge of one other object.  A segment-valued
intersection adds the two mirrored records. -/
def findAdjInner (selfId selfEdgeIdx : ℕ) (selfEdge : LineSegment) (objId : ℕ) :
    List (ℕ × LineSegment) → AdjState → Option AdjState
  | [], st => some st
  | (objEdgeIdx, objEdge) :: rest, st => do
    let intersection ← selfEdge.intersectS objEdge
    match intersection with
    | .seg s =>
      findAdjInner selfId selfEdgeIdx selfEdge objId rest
        (add_adjacency
          (add_adjacency st selfId objId selfEdgeIdx objEdgeIdx (some s))
          objId selfId objEdgeIdx selfEdgeIdx (some s))
    | _ => findAdjInner selfId selfEdgeIdx selfEdge objId rest st

/-- Middle loop of `PlanObject.find_adjacencies`: one edge of `self`
against every other object. -/
def findAdjMid (selfId selfEdgeIdx : ℕ) (selfEdge : LineSegment) :
    List (ℕ × Entity) → AdjState → Option AdjState
  | [], st => some st
  | (objId, obj) :: rest, st => do
    let st ← findAdjInner selfId selfEdgeIdx selfEdge objId obj.eligiblePairs st
    findAdjMid selfId selfEdgeIdx selfEdge rest st

/-- Embedding of `PlanObject.find_adjacencies(other_objects)`. -/
def find_adjacencies (selfId : ℕ) (selfE : Entity) (others : List (ℕ × Entity)) :
    AdjState → Option AdjState :=
  go selfE.eligiblePairs
where
  go : List (ℕ × LineSegment) → AdjState → Option AdjState
    | [], st => some st
    | (selfEdgeIdx, selfEdge) :: rest, st => do
      let st ← findAdjMid selfId selfEdgeIdx selfEdge others st
      go rest st

/-- Innermost loop of `PlanObject.find_close`: one loose edge of `self`
against every eligible edge of one other object.  A close pair adds the two
mirrored records with a `None` intersection. -/
def findCloseInner (selfId selfEdgeIdx : ℕ) (selfEdge : LineSegment) (objId : ℕ)
    (tolerance : ℚ) : List (ℕ × LineSegment) → AdjState → Option AdjState
  | [], st => some st
  | (objEdgeIdx, objEdge) :: rest, st => do
    let b ← selfEdge.is_closeS objEdge tolerance
    if b then
      findCloseInner selfId selfEdgeIdx selfEdge objId tolerance rest
        (add_adjacency (add_adjacency st selfId objId selfEdgeIdx objEdgeIdx none)
          objId selfId objEdgeIdx selfEdgeIdx none)
    else findCloseInner selfId selfEdgeIdx selfEdge objId tolerance rest st

/-- Middle loop of `PlanObject.find_close`: one loose edge of `self`
against every other object. -/
def findCloseMid (selfId selfEdgeIdx : ℕ) (selfEdge : LineSegment)
    (tolerance : ℚ) : List (ℕ × Entity) → AdjState → Option AdjState
  | [], st => some st
  | (objId, obj) :: rest, st => do
    let st ← findCloseInner selfId selfEdgeIdx selfEdge objId tolerance
      obj.eligiblePairs st
    findCloseMid selfId selfEdgeIdx selfEdge tolerance rest st

/-- Embedding of `PlanObject.find_close(other_objects, tolerance)`: the
loose edges are computed once from the state at entry; each loose edge's
index is recovered with `self.edges.index(self_edge)` (first position of an
equal edge). -/
def find_close (selfId : ℕ) (selfE : Entity) (others : List (ℕ × Entity))
    (tolerance : ℚ) (st : AdjState) : Option AdjState :=
  go (edges_without_adjacencies selfId selfE st) st
where
  go : List LineSegment → AdjState → Option AdjState
    | [], st => some st
    | selfEdge :: rest, st => do
      let st ← findCloseMid selfId (selfE.edges.indexOf selfEdge) selfEdge
        tolerance others st
      go rest st

/-- A floor: rooms, walls and railings, each entity paired with its id. -/
structure FloorM where
  rooms : List (ℕ × Entity)
  walls : List (ℕ × Entity)
  railings : List (ℕ × Entity)

/-- Pass 1 of `Floor.find_adjacencies`: every room against the walls, the
railings, and the rooms after it. -/
def floorPass1 (walls railings : List (ℕ × Entity)) :
    List (ℕ × Entity) → AdjState → Option AdjState
  | [], st => some st
  | (roomId, room) :: rest, st => do
    let st ← find_adjacencies roomId room walls st
    let st ← find_adjacencies roomId room railings st
    let st ← find_adjacencies roomId room rest st
    floorPass1 walls railings rest st

/-- Pass 2 of `Floor.find_adjacencies`: every room that still has a loose
edge re-runs the candidate sets with `find_close` at
`CLOSE_EDGE_TOLERANCE`. -/
def floorPass2 (walls railings : List (ℕ × Entity)) :
    List (ℕ × Entity) → AdjState → Option AdjState
  | [], st => some st
  | (roomId, room) :: rest, st => do
    if (edges_without_adjacencies roomId room st).length > 0 then
      let st ← find_close roomId room walls CLOSE_EDGE_TOLERANCE st
      let st ← find_close roomId room railings CLOSE_EDGE_TOLERANCE st
      let st ← find_close roomId room rest CLOSE_EDGE_TOLERANCE st
      floorPass2 walls railings rest st
    else floorPass2 walls railings rest st

/-- Embedding of `Floor.find_adjacencies()`: pass 1 then pass 2. -/
def floor_find_adjacencies (f : FloorM) (st : AdjState) : Option AdjState := do
  let st ← floorPass1 f.walls f.railings f.rooms st
  floorPass2 f.walls f.railings f.rooms st

/-- Symmetry of an adjacency state: every record and its mirror occur
equally often, i.e. whenever entity `A` holds a record referencing `B` with
edge indices `(i, j)` and a given intersection, `B` holds the mirrored
record referencing `A` with edge indices `(j, i)` and the same
intersection. -/
def SymmState (st : AdjState) : Prop :=
  ∀ r : AdjRec, st.count r = st.count r.mirror

/-!
Helper development for cyclic edge sums (`Polygon.area` and
`Polygon.perimeter`): the fold over `pairs_of_vertices` equals a path sum
over the vertex list closed with its own head, which behaves well under
rotation, reversal and removal of consecutive duplicate vertices. -/

/-- Consecutive pairs of a list (without the closing pair). -/
def consecutivePairs : List Point → List (Point × Point)
  | a :: b :: t => (a, b) :: consecutivePairs (b :: t)
  | _ => []

theorem consecutivePairs_eq_zip : ∀ l : List Point, consecutivePairs l = l.zip l.tail
  | [] => rfl
  | [_] => rfl
  | a :: b :: t => by
    rw [consecutivePairs]
    simp [consecutivePairs_eq_zip (b :: t)]

section PathSum

variable {α : Type} [AddCommGroup α] (f : Point → Point → α)

/-- Sum of `f` over consecutive pairs of a vertex path. -/
def pathSum : List Point → α
  | a :: b :: t => f a b + pathSum (b :: t)
  | _ => 0

theorem pathSum_cons (a : Point) (l : List Point) (h : l ≠ []) :
    pathSum f (a :: l) = f a (l.head h) + pathSum f l := by
  cases l with
  | nil => exact absurd rfl h
  | cons b t => rfl

theorem pathSum_append_single : ∀ (l : List Point) (h : l ≠ []) (z : Point),
    pathSum f (l ++ [z]) = pathSum f l + f (l.getLast h) z
  | [], h, _ => absurd rfl h
  | [a], _, z => by simp [pathSum]
  | a :: b :: t, _, z => by
    have ih := pathSum_append_single (b :: t) (List.cons_ne_nil b t) z
    simp only [List.cons_append] at ih ⊢
    rw [pathSum, ih, List.getLast_cons_cons, pathSum]
    abel

theorem pathSum_reverse (hf : ∀ a b, f a b = - f b a) :
    ∀ l : List Point, pathSum f l.reverse = - pathSum f l
  | [] => by simp [pathSum]
  | [a] => by simp [pathSum]
  | a :: b :: t => by
    have ih := pathSum_reverse hf (b :: t)
    have hne : (b :: t).reverse ≠ [] := by simp
    rw [show (a :: b :: t).reverse = (b :: t).reverse ++ [a] by simp,
      pathSum_append_single f ((b :: t).reverse) hne a]
    rw [List.getLast_reverse hne]
    simp only [List.head_cons]
    rw [ih, pathSum, hf b a]
    abel

theorem pathSum_dup : ∀ (xs : List Point) (v : Point) (ys : List Point),
    pathSum f (xs ++ v :: v :: ys) = pathSum f (xs ++ v :: ys) + f v v
  | [], v, ys => by
    cases ys with
    | nil =>
      simp only [List.nil_append, pathSum]
      abel
    | cons c t =>
      simp only [List.nil_append, pathSum]
      abel
  | a :: xs, v, ys => by
    have ih := pathSum_dup xs v ys
    have h1 : xs ++ v :: v :: ys ≠ [] := by simp
    have h2 : xs ++ v :: ys ≠ [] := by simp
    have hhead : (xs ++ v :: v :: ys).head h1 = (xs ++ v :: ys).head h2 := by
      cases xs <;> simp
    simp only [List.cons_append]
    rw [pathSum_cons f a _ h1, pathSum_cons f a _ h2, ih, hhead]
    abel

/-- Cyclic edge sum of a vertex list: the path sum of the list closed with
its own first vertex.  This is the sum the `pairs_of_vertices` folds of
`Polygon.area` and `Polygon.perimeter` compute. -/
def polySum : List Point → α
  | [] => 0
  | v :: t => pathSum f ((v :: t) ++ [v])

theorem polySum_eq_pathSum (l : List Point) (h : l ≠ []) :
    polySum f l = pathSum f (l ++ [l.head h]) := by
  cases l with
  | nil => exact absurd rfl h
  | cons v t => rfl

theorem polySum_rotate_one : ∀ l : List Point, polySum f (l.rotate 1) = polySum f l
  | [] => rfl
  | [v] => by simp [List.rotate_cons_succ, List.rotate_zero]
  | v :: b :: t => by
    rw [List.rotate_cons_succ, List.rotate_zero]
    have hbt : (b :: t) ++ [v] = b :: (t ++ [v]) := by simp
    have hne : (b :: t) ++ [v] ≠ [] := by simp
    have hhead : ((b :: t) ++ [v]).head hne = b := by simp
    rw [polySum_eq_pathSum f ((b :: t) ++ [v]) hne, hhead]
    have hgl : ((b :: t) ++ [v]).getLast hne = v := by simp
    rw [pathSum_append_single f ((b :: t) ++ [v]) hne b, hgl]
    show _ = pathSum f (v :: ((b :: t) ++ [v]))
    rw [pathSum_cons f v ((b :: t) ++ [v]) hne, hhead]
    abel

theorem polySum_rotate (l : List Point) : ∀ n : ℕ, polySum f (l.rotate n) = polySum f l
  | 0 => by rw [List.rotate_zero]
  | n + 1 => by
    rw [show n + 1 = 1 + n by omega, ← List.rotate_rotate]
    rw [polySum_rotate (l.rotate 1) n, polySum_rotate_one]

theorem polySum_reverse (hf : ∀ a b, f a b = - f b a) (l : List Point) :
    polySum f l.reverse = - polySum f l := by
  cases l with
  | nil => simp [polySum]
  | cons v t =>
    have hne : (v :: t) ≠ [] := List.cons_ne_nil v t
    have hrne : (v :: t).reverse ≠ [] := by simp
    rw [polySum_eq_pathSum f _ hrne, List.head_reverse hrne]
    rw [show (v :: t).reverse ++ [(v :: t).getLast hne] =
      ((v :: t).getLast hne :: (v :: t)).reverse by simp]
    rw [pathSum_reverse f hf]
    rw [pathSum_cons f _ (v :: t) hne]
    rw [polySum_eq_pathSum f _ hne,
      pathSum_append_single f (v :: t) hne ((v :: t).head hne)]
    abel

theorem polySum_dedup (hff : ∀ a, f a a = 0) (xs : List Point) (v : Point)
    (ys : List Point) : polySum f (xs ++ v :: v :: ys) = polySum f (xs ++ v :: ys) := by
  have h1 : xs ++ v :: v :: ys ≠ [] := by simp
  have h2 : xs ++ v :: ys ≠ [] := by simp
  have hhead : (xs ++ v :: v :: ys).head h1 = (xs ++ v :: ys).head h2 := by
    cases xs <;> simp
  rw [polySum_eq_pathSum f _ h1, polySum_eq_pathSum f _ h2, hhead]
  rw [show (xs ++ v :: v :: ys) ++ [(xs ++ v :: ys).head h2] =
    xs ++ v :: v :: (ys ++ [(xs ++ v :: ys).head h2]) by simp]
  rw [show (xs ++ v :: ys) ++ [(xs ++ v :: ys).head h2] =
    xs ++ v :: (ys ++ [(xs ++ v :: ys).head h2]) by simp]
  rw [pathSum_dup f xs v (ys ++ [(xs ++ v :: ys).head h2]), hff v, add_zero]

theorem pathSum_eq_sum_map : ∀ l : List Point,
    pathSum f l = ((consecutivePairs l).map (fun q => f q.1 q.2)).sum
  | [] => rfl
  | [_] => rfl
  | a :: b :: t => by
    rw [pathSum, consecutivePairs, List.map_cons, List.sum_cons,
      pathSum_eq_sum_map (b :: t)]

theorem foldl_add_eq_sum {β : Type} (g : β → α) :
    ∀ (l : List β) (a : α), l.foldl (fun acc q => acc + g q) a = a + (l.map g).sum
  | [], a => by simp
  | b :: t, a => by
    rw [List.foldl_cons, foldl_add_eq_sum g t (a + g b), List.map_cons,
      List.sum_cons]
    abel

end PathSum

theorem zip_cons_append : ∀ (t : List Point) (a z : Point),
    ((a :: t) ++ [z]).zip (t ++ [z]) =
      (a :: t).zip t ++ [(List.getLast (a :: t) (List.cons_ne_nil a t), z)]
  | [], a, z => by simp
  | b :: t2, a, z => by
    have ih := zip_cons_append t2 b z
    simp only [List.cons_append, List.zip_cons_cons] at *
    rw [ih]
    simp [List.getLast_cons_cons]

theorem pairs_of_vertices_eq_consecutivePairs (v : Point) (t : List Point) :
    (Polygon.mk (v :: t)).pairs_of_vertices = consecutivePairs ((v :: t) ++ [v]) := by
  rw [Polygon.pairs_of_vertices, consecutivePairs_eq_zip]
  rw [show ((v :: t) ++ [v]).tail = t ++ [v] by simp]
  exact (zip_cons_append t v v).symm

/-- The shoelace term of `Polygon.area`. -/
def shoeTerm (p q : Point) : ℚ := (p.x + q.x) * (p.y - q.y)

theorem shoeTerm_antisymm (p q : Point) : shoeTerm p q = - shoeTerm q p := by
  rw [shoeTerm, shoeTerm]; ring

theorem shoeTerm_refl (p : Point) : shoeTerm p p = 0 := by rw [shoeTerm]; ring

theorem shoelaceFold_eq_polySum (l : List Point) :
    (Polygon.mk l).shoelaceFold = polySum shoeTerm l := by
  cases l with
  | nil => rfl
  | cons v t =>
    rw [Polygon.shoelaceFold, pairs_of_vertices_eq_consecutivePairs]
    rw [show (fun (a : ℚ) (q : Point × Point) =>
      a + (q.1.x + q.2.x) * (q.1.y - q.2.y)) = (fun a q => a + shoeTerm q.1 q.2)
      from rfl]
    rw [foldl_add_eq_sum (fun q : Point × Point => shoeTerm q.1 q.2)
      (consecutivePairs ((v :: t) ++ [v])) 0, zero_add]
    rw [polySum, pathSum_eq_sum_map]

/-- The edge-length term of `Polygon.perimeter`. -/
noncomputable def distTerm (p q : Point) : ℝ := Polygon.distR p q

theorem distTerm_refl (p : Point) : distTerm p p = 0 := by
  rw [distTerm, Polygon.distR]
  simp

theorem perimeter_eq_polySum (l : List Point) :
    (Polygon.mk l).perimeter = polySum distTerm l := by
  cases l with
  | nil => rfl
  | cons v t =>
    rw [Polygon.perimeter, pairs_of_vertices_eq_consecutivePairs]
    rw [show (fun (d : ℝ) (q : Point × Point) => d + Polygon.distR q.1 q.2) =
      (fun d q => d + distTerm q.1 q.2) from rfl]
    rw [foldl_add_eq_sum (fun q : Point × Point => distTerm q.1 q.2)
      (consecutivePairs ((v :: t) ++ [v])) 0, zero_add]
    rw [polySum, pathSum_eq_sum_map]

/-- C9: for every Line and every Point, `Line.distance_to_point` raises an
error, because its body references the undefined name `c` instead of the
field `self.c`; no input reaches a successful return. -/
theorem c9_line_distance_to_point_always_raises (l : Line) (p : Point) :
    Line.distance_to_point l p = none := rfl

/-- C7: for every vertex list, `Polygon.area()` is non-negative and
unchanged when the winding direction is reversed, and both `Polygon.area()`
and `Polygon.perimeter()` are unchanged under cyclic rotation of the vertex
list and under removal of a consecutive duplicate vertex. -/
theorem c7_area_perimeter_invariance (vs : List Point) (h : vs ≠ []) :
    0 ≤ Polygon.area ⟨vs⟩ ∧
    Polygon.area ⟨vs.reverse⟩ = Polygon.area ⟨vs⟩ ∧
    (∀ n : ℕ, Polygon.area ⟨vs.rotate n⟩ = Polygon.area ⟨vs⟩ ∧
      Polygon.perimeter ⟨vs.rotate n⟩ = Polygon.perimeter ⟨vs⟩) ∧
    (∀ (xs : List Point) (v : Point) (ys : List Point),
      Polygon.area ⟨xs ++ v :: v :: ys⟩ = Polygon.area ⟨xs ++ v :: ys⟩ ∧
      Polygon.perimeter ⟨xs ++ v :: v :: ys⟩ = Polygon.perimeter ⟨xs ++ v :: ys⟩) := by
  refine ⟨abs_nonneg _, ?_, ?_, ?_⟩
  · rw [Polygon.area, Polygon.area, shoelaceFold_eq_polySum,
      shoelaceFold_eq_polySum, polySum_reverse shoeTerm shoeTerm_antisymm vs,
      neg_div, abs_neg]
  · intro n
    constructor
    · rw [Polygon.area, Polygon.area, shoelaceFold_eq_polySum,
        shoelaceFold_eq_polySum, polySum_rotate shoeTerm vs n]
    · rw [perimeter_eq_polySum, perimeter_eq_polySum, polySum_rotate distTerm vs n]
  · intro xs v ys
    constructor
    · rw [Polygon.area, Polygon.area, shoelaceFold_eq_polySum,
        shoelaceFold_eq_polySum, polySum_dedup shoeTerm shoeTerm_refl xs v ys]
    · rw [perimeter_eq_polySum, perimeter_eq_polySum,
        polySum_dedup distTerm distTerm_refl xs v ys]

/-- Witness for C7 at the triangle `(0,0), (4,0), (4,4)`. -/
theorem c7_witness :
    ([⟨0, 0⟩, ⟨4, 0⟩, ⟨4, 4⟩] : List Point) ≠ [] ∧
    Polygon.area ⟨([⟨0, 0⟩, ⟨4, 0⟩, ⟨4, 4⟩] : List Point).rotate 1⟩ =
      Polygon.area ⟨[⟨0, 0⟩, ⟨4, 0⟩, ⟨4, 4⟩]⟩ ∧
    Polygon.area ⟨([⟨0, 0⟩, ⟨4, 0⟩, ⟨4, 4⟩] : List Point).reverse⟩ =
      Polygon.area ⟨[⟨0, 0⟩, ⟨4, 0⟩, ⟨4, 4⟩]⟩ :=
  ⟨by simp,
    ((c7_area_perimeter_invariance [⟨0, 0⟩, ⟨4, 0⟩, ⟨4, 4⟩] (by simp)).2.2.1 1).1,
    (c7_area_perimeter_invariance [⟨0, 0⟩, ⟨4, 0⟩, ⟨4, 4⟩] (by simp)).2.1⟩

/-!
Symmetry of the adjacency engine (claim C1): every state reachable by the
floor run from a symmetric state is symmetric, because every loop of
`find_adjacencies` and `find_close` appends records in mirrored pairs. -/

theorem mirror_mirror (r : AdjRec) : r.mirror.mirror = r := rfl

theorem add_pair_eq (st : AdjState) (a b i j : ℕ) (I : Option LineSegment) :
    add_adjacency (add_adjacency st a b i j I) b a j i I =
      st ++ [⟨a, b, i, j, I⟩, AdjRec.mirror ⟨a, b, i, j, I⟩] := by
  simp [add_adjacency, AdjRec.mirror]

theorem symm_append_pair {st : AdjState} (hs : SymmState st) (r : AdjRec) :
    SymmState (st ++ [r, r.mirror]) := by
  intro q
  rw [List.count_append, List.count_append, hs q]
  have h1 : (q = r.mirror) ↔ (q.mirror = r) := by
    constructor
    · intro h; rw [h, mirror_mirror]
    · intro h; rw [← h, mirror_mirror]
  have h2 : (q = r) ↔ (q.mirror = r.mirror) := by
    constructor
    · intro h; rw [h]
    · intro h
      have := congrArg AdjRec.mirror h
      rwa [mirror_mirror, mirror_mirror] at this
  have e1 : (r = q.mirror) ↔ (r.mirror = q) := by
    constructor
    · intro h; rw [h, mirror_mirror]
    · intro h; rw [← h, mirror_mirror]
  have e2 : (r.mirror = q.mirror) ↔ (r = q) := by
    constructor
    · intro h
      have := congrArg AdjRec.mirror h
      rwa [mirror_mirror, mirror_mirror] at this
    · intro h; rw [h]
  have key : ∀ x : AdjRec, List.count x [r, r.mirror] =
      (if r.mirror = x then 1 else 0) + (if r = x then 1 else 0) := by
    intro x
    simp only [List.count_cons, List.count_nil, beq_iff_eq, Nat.zero_add]
  rw [key q, key q.mirror]
  simp only [e1, e2]
  exact congrArg (fun z => List.count q.mirror st + z) (add_comm _ _)

theorem findAdjInner_symm (a i : ℕ) (e : LineSegment) (o : ℕ) :
    ∀ (pairs : List (ℕ × LineSegment)) (st st' : AdjState), SymmState st →
      findAdjInner a i e o pairs st = some st' → SymmState st'
  | [], st, st', hs, h => by
    rw [findAdjInner] at h
    cases h
    exact hs
  | (j, f) :: rest, st, st', hs, h => by
    rw [findAdjInner] at h
    cases hint : e.intersectS f with
    | none => rw [hint] at h; cases h
    | some v =>
      rw [hint] at h
      cases v with
      | seg s =>
        simp only [Option.bind_eq_bind, Option.some_bind, Option.bind_some] at h
        rw [add_pair_eq] at h
        exact findAdjInner_symm a i e o rest _ st' (symm_append_pair hs _) h
      | pt p =>
        simp only [Option.bind_eq_bind, Option.some_bind, Option.bind_some] at h
        exact findAdjInner_symm a i e o rest st st' hs h
      | nothing =>
        simp only [Option.bind_eq_bind, Option.some_bind, Option.bind_some] at h
        exact findAdjInner_symm a i e o rest st st' hs h

theorem findAdjMid_symm (a i : ℕ) (e : LineSegment) :
    ∀ (others : List (ℕ × Entity)) (st st' : AdjState), SymmState st →
      findAdjMid a i e others st = some st' → SymmState st'
  | [], st, st', hs, h => by
    rw [findAdjMid] at h
    cases h
    exact hs
  | (o, obj) :: rest, st, st', hs, h => by
    rw [findAdjMid] at h
    cases hstep : findAdjInner a i e o obj.eligiblePairs st with
    | none => rw [hstep] at h; cases h
    | some st1 =>
      rw [hstep] at h
      simp only [Option.bind_eq_bind, Option.some_bind, Option.bind_some] at h
      exact findAdjMid_symm a i e rest st1 st'
        (findAdjInner_symm a i e o obj.eligiblePairs st st1 hs hstep) h

theorem findAdjGo_symm (a : ℕ) (selfE : Entity) (others : List (ℕ × Entity)) :
    ∀ (pairs : List (ℕ × LineSegment)) (st st' : AdjState), SymmState st →
      find_adjacencies.go a others pairs st = some st' → SymmState st'
  | [], st, st', hs, h => by
    rw [find_adjacencies.go] at h
    cases h
    exact hs
  | (i, e) :: rest, st, st', hs, h => by
    rw [find_adjacencies.go] at h
    cases hstep : findAdjMid a i e others st with
    | none => rw [hstep] at h; cases h
    | some st1 =>
      rw [hstep] at h
      simp only [Option.bind_eq_bind, Option.some_bind, Option.bind_some] at h
      exact findAdjGo_symm a selfE others rest st1 st'
        (findAdjMid_symm a i e others st st1 hs hstep) h

theorem find_adjacencies_symm (a : ℕ) (selfE : Entity)
    (others : List (ℕ × Entity)) (st st' : AdjState) (hs : SymmState st)
    (h : find_adjacencies a selfE others st = some st') : SymmState st' :=
  findAdjGo_symm a selfE others selfE.eligiblePairs st st' hs h

theorem findCloseInner_symm (a i : ℕ) (e : LineSegment) (o : ℕ) (tol : ℚ) :
    ∀ (pairs : List (ℕ × LineSegment)) (st st' : AdjState), SymmState st →
      findCloseInner a i e o tol pairs st = some st' → SymmState st'
  | [], st, st', hs, h => by
    rw [findCloseInner] at h
    cases h
    exact hs
  | (j, f) :: rest, st, st', hs, h => by
    rw [findCloseInner] at h
    cases hb : e.is_closeS f tol with
    | none => rw [hb] at h; cases h
    | some b =>
      rw [hb] at h
      simp only [Option.bind_eq_bind, Option.some_bind, Option.bind_some] at h
      cases b with
      | true =>
        simp only [if_pos rfl, reduceIte] at h
        rw [add_pair_eq] at h
        exact findCloseInner_symm a i e o tol rest _ st' (symm_append_pair hs _) h
      | false =>
        simp only [Bool.false_eq_true, reduceIte] at h
        exact findCloseInner_symm a i e o tol rest st st' hs h

theorem findCloseMid_symm (a i : ℕ) (e : LineSegment) (tol : ℚ) :
    ∀ (others : List (ℕ × Entity)) (st st' : AdjState), SymmState st →
      findCloseMid a i e tol others st = some st' → SymmState st'
  | [], st, st', hs, h => by
    rw [findCloseMid] at h
    cases h
    exact hs
  | (o, obj) :: rest, st, st', hs, h => by
    rw [findCloseMid] at h
    cases hstep : findCloseInner a i e o tol obj.eligiblePairs st with
    | none => rw [hstep] at h; cases h
    | some st1 =>
      rw [hstep] at h
      simp only [Option.bind_eq_bind, Option.some_bind, Option.bind_some] at h
      exact findCloseMid_symm a i e tol rest st1 st'
        (findCloseInner_symm a i e o tol obj.eligiblePairs st st1 hs hstep) h

theorem findCloseGo_symm (a : ℕ) (selfE : Entity) (others : List (ℕ × Entity))
    (tol : ℚ) :
    ∀ (loose : List LineSegment) (st st' : AdjState), SymmState st →
      find_close.go a selfE others tol loose st = some st' → SymmState st'
  | [], st, st', hs, h => by
    rw [find_close.go] at h
    cases h
    exact hs
  | e :: rest, st, st', hs, h => by
    rw [find_close.go] at h
    cases hstep : findCloseMid a (selfE.edges.indexOf e) e tol others st with
    | none => rw [hstep] at h; cases h
    | some st1 =>
      rw [hstep] at h
      simp only [Option.bind_eq_bind, Option.some_bind, Option.bind_some] at h
      exact findCloseGo_symm a selfE others tol rest st1 st'
        (findCloseMid_symm a (selfE.edges.indexOf e) e tol others st st1 hs hstep) h

theorem find_close_symm (a : ℕ) (selfE : Entity) (others : List (ℕ × Entity))
    (tol : ℚ) (st st' : AdjState) (hs : SymmState st)
    (h : find_close a selfE others tol st = some st') : SymmState st' :=
  findCloseGo_symm a selfE others tol (edges_without_adjacencies a selfE st) st
    st' hs h

theorem floorPass1_symm (walls railings : List (ℕ × Entity)) :
    ∀ (rooms : List (ℕ × Entity)) (st st' : AdjState), SymmState st →
      floorPass1 walls railings rooms st = some st' → SymmState st'
  | [], st, st', hs, h => by
    rw [floorPass1] at h
    cases h
    exact hs
  | (roomId, room) :: rest, st, st', hs, h => by
    rw [floorPass1] at h
    cases h1 : find_adjacencies roomId room walls st with
    | none => rw [h1] at h; cases h
    | some st1 =>
      rw [h1] at h
      simp only [Option.bind_eq_bind, Option.some_bind, Option.bind_some] at h
      cases h2 : find_adjacencies roomId room railings st1 with
      | none => rw [h2] at h; cases h
      | some st2 =>
        rw [h2] at h
        simp only [Option.bind_eq_bind, Option.some_bind, Option.bind_some] at h
        cases h3 : find_adjacencies roomId room rest st2 with
        | none => rw [h3] at h; cases h
        | some st3 =>
          rw [h3] at h
          simp only [Option.bind_eq_bind, Option.some_bind, Option.bind_some] at h
          have hs1 := find_adjacencies_symm roomId room walls st st1 hs h1
          have hs2 := find_adjacencies_symm roomId room railings st1 st2 hs1 h2
          have hs3 := find_adjacencies_symm roomId room rest st2 st3 hs2 h3
          exact floorPass1_symm walls railings rest st3 st' hs3 h

theorem floorPass2_symm (walls railings : List (ℕ × Entity)) :
    ∀ (rooms : List (ℕ × Entity)) (st st' : AdjState), SymmState st →
      floorPass2 walls railings rooms st = some st' → SymmState st'
  | [], st, st', hs, h => by
    rw [floorPass2] at h
    cases h
    exact hs
  | (roomId, room) :: rest, st, st', hs, h => by
    rw [floorPass2] at h
    by_cases hguard : (edges_without_adjacencies roomId room st).length > 0
    · rw [if_pos hguard] at h
      cases h1 : find_close roomId room walls CLOSE_EDGE_TOLERANCE st with
      | none => rw [h1] at h; cases h
      | some st1 =>
        rw [h1] at h
        simp only [Option.bind_eq_bind, Option.some_bind, Option.bind_some] at h
        cases h2 : find_close roomId room railings CLOSE_EDGE_TOLERANCE st1 with
        | none => rw [h2] at h; cases h
        | some st2 =>
          rw [h2] at h
          simp only [Option.bind_eq_bind, Option.some_bind, Option.bind_some] at h
          cases h3 : find_close roomId room rest CLOSE_EDGE_TOLERANCE st2 with
          | none => rw [h3] at h; cases h
          | some st3 =>
            rw [h3] at h
            simp only [Option.bind_eq_bind, Option.some_bind, Option.bind_some] at h
            have hs1 := find_close_symm roomId room walls _ st st1 hs h1
            have hs2 := find_close_symm roomId room railings _ st1 st2 hs1 h2
            have hs3 := find_close_symm roomId room rest _ st2 st3 hs2 h3
            exact floorPass2_symm walls railings rest st3 st' hs3 h
    · rw [if_neg hguard] at h
      exact floorPass2_symm walls railings rest st st' hs h

theorem SymmState_nil : SymmState [] := by
  intro r
  rfl

/-- C1: for every completed floor analysis run (pass 1 exact detection and
pass 2 tolerance recovery) started from the empty adjacency state, the
adjacency relation is symmetric: whenever an entity `A` holds an
`AdjacencyRecord` referencing entity `B` with edge indices `(i, j)` and a
given intersection value, `B` holds (equally often) the mirrored record
referencing `A` with edge indices `(j, i)` and the same intersection
value. -/
theorem c1_adjacency_symmetric (f : FloorM) (st : AdjState)
    (h : floor_find_adjacencies f [] = some st) : SymmState st := by
  rw [floor_find_adjacencies] at h
  cases h1 : floorPass1 f.walls f.railings f.rooms [] with
  | none => rw [h1] at h; cases h
  | some st1 =>
    rw [h1] at h
    simp only [Option.bind_eq_bind, Option.some_bind, Option.bind_some] at h
    exact floorPass2_symm f.walls f.railings f.rooms st1 st
      (floorPass1_symm f.walls f.railings f.rooms [] st1 SymmState_nil h1) h

/-- Two-room floor used as the witness input for C1: two axis-aligned unit
squares sharing the horizontal edge `y = 0`. -/
def floorC1 : FloorM :=
  ⟨[(0, ⟨.room, (Polygon.edges ⟨[⟨0, 0⟩, ⟨2, 0⟩, ⟨2, 2⟩, ⟨0, 2⟩]⟩)⟩),
    (1, ⟨.room, (Polygon.edges ⟨[⟨0, -2⟩, ⟨2, -2⟩, ⟨2, 0⟩, ⟨0, 0⟩]⟩)⟩)], [], []⟩

/-- Witness for C1: on the concrete two-room floor the run completes, the
pass-1 record of room 0 against room 1 is held exactly once, and its mirror
is held equally often. -/
theorem c1_adjacency_symmetric_witness :
    ((floor_find_adjacencies floorC1 []).getD []).count
        ⟨0, 1, 0, 2, some ⟨⟨2, 0⟩, ⟨0, 0⟩⟩⟩ =
      ((floor_find_adjacencies floorC1 []).getD []).count
        (AdjRec.mirror ⟨0, 1, 0, 2, some ⟨⟨2, 0⟩, ⟨0, 0⟩⟩⟩) ∧
    ((floor_find_adjacencies floorC1 []).getD []).count
        ⟨0, 1, 0, 2, some ⟨⟨2, 0⟩, ⟨0, 0⟩⟩⟩ = 1 := by
  have hsome : floor_find_adjacencies floorC1 [] =
      some ((floor_find_adjacencies floorC1 []).getD []) := by
    with_unfolding_all decide
  exact ⟨c1_adjacency_symmetric floorC1 _ hsome _, by with_unfolding_all decide⟩

/-!
Pass-2 behaviour on the initiating room (claim C4): `find_close` adds
nothing when the room has no loose edges, and, when the room's edge list
has no duplicate edges, every record it adds on the initiating room itself
sits on a loose edge index.  The passive (object) side of `find_close`
enjoys no such protection. -/

/-- Indices of the eligible edges of an entity that carry no adjacency
record (the indices of `edges_without_adjacencies`). -/
def looseIdxs (selfId : ℕ) (e : Entity) (st : AdjState) : List ℕ :=
  (e.eligiblePairs.filter (fun q =>
    ¬ st.any (fun r => r.owner = selfId && r.self_edge_index = q.1))).map Prod.fst

theorem find_close_no_loose (selfId : ℕ) (e : Entity)
    (others : List (ℕ × Entity)) (tol : ℚ) (st : AdjState)
    (h : edges_without_adjacencies selfId e st = []) :
    find_close selfId e others tol st = some st := by
  rw [find_close, h, find_close.go]

theorem findCloseInner_mem (P : AdjRec → Prop) (a i : ℕ) (e : LineSegment)
    (o : ℕ) (tol : ℚ) (hadd : ∀ j, P ⟨a, o, i, j, none⟩ ∧ P ⟨o, a, j, i, none⟩) :
    ∀ (pairs : List (ℕ × LineSegment)) (st st' : AdjState),
      (∀ r ∈ st, P r) → findCloseInner a i e o tol pairs st = some st' →
      ∀ r ∈ st', P r
  | [], st, st', hst, h => by
    rw [findCloseInner] at h
    cases h
    exact hst
  | (j, f) :: rest, st, st', hst, h => by
    rw [findCloseInner] at h
    cases hb : e.is_closeS f tol with
    | none => rw [hb] at h; cases h
    | some b =>
      rw [hb] at h
      simp only [Option.bind_eq_bind, Option.some_bind, Option.bind_some] at h
      cases b with
      | true =>
        simp only [reduceIte] at h
        refine findCloseInner_mem P a i e o tol hadd rest _ st' ?_ h
        intro r hr
        simp only [add_adjacency, List.append_assoc, List.mem_append,
          List.mem_singleton, List.mem_cons, List.not_mem_nil, or_false] at hr
        rcases hr with hr | hr | hr
        · exact hst r hr
        · exact hr ▸ (hadd j).1
        · exact hr ▸ (hadd j).2
      | false =>
        simp only [Bool.false_eq_true, reduceIte] at h
        exact findCloseInner_mem P a i e o tol hadd rest st st' hst h

theorem findCloseMid_mem (P : AdjRec → Prop) (a i : ℕ) (e : LineSegment)
    (tol : ℚ) :
    ∀ (others : List (ℕ × Entity)) (st st' : AdjState),
      (∀ q ∈ others, ∀ j, P ⟨a, q.1, i, j, none⟩ ∧ P ⟨q.1, a, j, i, none⟩) →
      (∀ r ∈ st, P r) → findCloseMid a i e tol others st = some st' →
      ∀ r ∈ st', P r
  | [], st, st', _, hst, h => by
    rw [findCloseMid] at h
    cases h
    exact hst
  | (o, obj) :: rest, st, st', hadd, hst, h => by
    rw [findCloseMid] at h
    cases hstep : findCloseInner a i e o tol obj.eligiblePairs st with
    | none => rw [hstep] at h; cases h
    | some st1 =>
      rw [hstep] at h
      simp only [Option.bind_eq_bind, Option.some_bind, Option.bind_some] at h
      refine findCloseMid_mem P a i e tol rest st1 st' ?_ ?_ h
      · intro q hq j
        exact hadd q (List.mem_cons_of_mem _ hq) j
      · exact findCloseInner_mem P a i e o tol
          (hadd (o, obj) (List.mem_cons_self _ _)) obj.eligiblePairs st st1 hst
          hstep

theorem findCloseGo_mem (P : AdjRec → Prop) (a : ℕ) (selfE : Entity)
    (others : List (ℕ × Entity)) (tol : ℚ) :
    ∀ (loose : List LineSegment) (st st' : AdjState),
      (∀ s ∈ loose, ∀ q ∈ others, ∀ j,
        P ⟨a, q.1, selfE.edges.indexOf s, j, none⟩ ∧
        P ⟨q.1, a, j, selfE.edges.indexOf s, none⟩) →
      (∀ r ∈ st, P r) → find_close.go a selfE others tol loose st = some st' →
      ∀ r ∈ st', P r
  | [], st, st', _, hst, h => by
    rw [find_close.go] at h
    cases h
    exact hst
  | s :: rest, st, st', hadd, hst, h => by
    rw [find_close.go] at h
    cases hstep : findCloseMid a (selfE.edges.indexOf s) s tol others st with
    | none => rw [hstep] at h; cases h
    | some st1 =>
      rw [hstep] at h
      simp only [Option.bind_eq_bind, Option.some_bind, Option.bind_some] at h
      refine findCloseGo_mem P a selfE others tol rest st1 st' ?_ ?_ h
      · intro s2 hs2 q hq j
        exact hadd s2 (List.mem_cons_of_mem _ hs2) q hq j
      · exact findCloseMid_mem P a (selfE.edges.indexOf s) s tol others st st1
          (hadd s (List.mem_cons_self _ _)) hst hstep

theorem loose_indexOf_mem (a : ℕ) (e : Entity) (st : AdjState)
    (hkind : e.kind = .room) (hnd : e.edges.Nodup) :
    ∀ s ∈ edges_without_adjacencies a e st,
      e.edges.indexOf s ∈ looseIdxs a e st := by
  intro s hs
  rw [edges_without_adjacencies] at hs
  obtain ⟨⟨i, s2⟩, hmem, hsnd⟩ := List.mem_map.mp hs
  rw [show (i, s2).2 = s2 from rfl] at hsnd
  subst hsnd
  have henum : (i, s2) ∈ e.eligiblePairs := List.mem_of_mem_filter hmem
  rw [Entity.eligiblePairs, hkind] at henum
  have hget := List.mk_mem_enum_iff_getElem?.mp henum
  have hi : i < e.edges.length := by
    by_contra hcon
    rw [List.getElem?_eq_none (by omega)] at hget
    cases hget
  have hsi : e.edges[i] = s2 := by
    rw [List.getElem?_eq_getElem hi] at hget
    simpa using hget
  have hidx : e.edges.indexOf s2 = i := by
    rw [← hsi]
    exact List.indexOf_getElem hnd i hi
  rw [hidx, looseIdxs]
  exact List.mem_map.mpr ⟨(i, s2), hmem, rfl⟩

/-- C4 (amended): a `find_close` pass adds nothing at all for a room with no
loose edges (so an edge of the initiating room that already holds an exact
record gains no record from the room's own pass when the room is fully
resolved), and, for an initiating room whose edge list has no duplicate
edges, every record the pass adds on that room carries a `None`
intersection and sits on one of the room's loose edge indices.  (Records
the same pass adds on the passive object entities are only guaranteed a
`None` intersection; an object edge that already holds an exact record can
still gain a tolerance record.) -/
theorem c4_pass2_loose_edges (selfId : ℕ) (e : Entity)
    (others : List (ℕ × Entity)) (tol : ℚ) (st st' : AdjState) :
    (edges_without_adjacencies selfId e st = [] →
      find_close selfId e others tol st = some st) ∧
    (e.kind = .room → e.edges.Nodup → (∀ q ∈ others, q.1 ≠ selfId) →
      find_close selfId e others tol st = some st' →
      ∀ r ∈ st', r ∈ st ∨ (r.intersection = none ∧
        (r.owner = selfId → r.self_edge_index ∈ looseIdxs selfId e st))) := by
  refine ⟨find_close_no_loose selfId e others tol st, ?_⟩
  intro hkind hnd hothers h
  rw [find_close] at h
  refine findCloseGo_mem
    (fun r => r ∈ st ∨ (r.intersection = none ∧
      (r.owner = selfId → r.self_edge_index ∈ looseIdxs selfId e st)))
    selfId e others tol (edges_without_adjacencies selfId e st) st st' ?_
    (fun r hr => Or.inl hr) h
  intro s hs q hq j
  constructor
  · exact Or.inr ⟨rfl, fun _ => loose_indexOf_mem selfId e st hkind hnd s hs⟩
  · exact Or.inr ⟨rfl, fun hown => absurd hown (hothers q hq)⟩

/-- Two-room floor refuting the literal reading of C4: a small square
touching the big square `(0,0)..(4,4)` only at the corner `(0,0)`.  Pass 1
records the zero-length corner overlap as an exact adjacency on the big
square's bottom edge (edge 0 of entity 1); pass 2, initiated by the small
room's loose right edge, then adds a tolerance record to that same
edge. -/
def floorC4 : FloorM :=
  ⟨[(0, ⟨.room, (Polygon.edges ⟨[⟨-2, -2⟩, ⟨0, -2⟩, ⟨0, 0⟩, ⟨-2, 0⟩]⟩)⟩),
    (1, ⟨.room, (Polygon.edges ⟨[⟨0, 0⟩, ⟨4, 0⟩, ⟨4, 4⟩, ⟨0, 4⟩]⟩)⟩)], [], []⟩

/-- Counterexample for C4 as stated: on the concrete floor `floorC4`, after
pass 1 the bottom edge (index 0) of entity 1 already holds the
exact-intersection record of the shared corner, and the completed run
additionally holds a tolerance-based (`None`-intersection) record on the
very same edge, added by pass 2 through the passive side of room 0's
`find_close`. -/
theorem c4_counterexample :
    ((floorPass1 floorC4.walls floorC4.railings floorC4.rooms []).getD []).count
        ⟨1, 0, 0, 2, some ⟨⟨0, 0⟩, ⟨0, 0⟩⟩⟩ = 1 ∧
    ((floor_find_adjacencies floorC4 []).getD []).count
        ⟨1, 0, 0, 2, some ⟨⟨0, 0⟩, ⟨0, 0⟩⟩⟩ = 1 ∧
    ((floor_find_adjacencies floorC4 []).getD []).count ⟨1, 0, 0, 1, none⟩ = 1 := by
  refine ⟨?_, ?_, ?_⟩ <;> with_unfolding_all decide

/-- Witness for the amended C4 at a concrete `find_close` run: a unit
square room with all edges loose against a second square half a unit away;
the record added on the initiating room sits on a loose edge index. -/
theorem c4_pass2_loose_edges_witness :
    (⟨0, 1, 1, 0, none⟩ : AdjRec) ∈ ([] : AdjState) ∨
      ((⟨0, 1, 1, 0, none⟩ : AdjRec).intersection = none ∧
        ((⟨0, 1, 1, 0, none⟩ : AdjRec).owner = 0 →
          (⟨0, 1, 1, 0, none⟩ : AdjRec).self_edge_index ∈
            looseIdxs 0 ⟨.room, (Polygon.edges ⟨[⟨0, 0⟩, ⟨1, 0⟩, ⟨1, 1⟩, ⟨0, 1⟩]⟩)⟩
              [])) := by
  have hsome : find_close 0
      ⟨.room, (Polygon.edges ⟨[⟨0, 0⟩, ⟨1, 0⟩, ⟨1, 1⟩, ⟨0, 1⟩]⟩)⟩
      [(1, ⟨.room, (Polygon.edges
        ⟨[⟨(3 : ℚ)/2, 0⟩, ⟨(5 : ℚ)/2, 0⟩, ⟨(5 : ℚ)/2, 1⟩, ⟨(3 : ℚ)/2, 1⟩]⟩)⟩)] 1
      [] = some ((find_close 0
        ⟨.room, (Polygon.edges ⟨[⟨0, 0⟩, ⟨1, 0⟩, ⟨1, 1⟩, ⟨0, 1⟩]⟩)⟩
        [(1, ⟨.room, (Polygon.edges
          ⟨[⟨(3 : ℚ)/2, 0⟩, ⟨(5 : ℚ)/2, 0⟩, ⟨(5 : ℚ)/2, 1⟩, ⟨(3 : ℚ)/2, 1⟩]⟩)⟩)]
        1 []).getD []) := by
    with_unfolding_all decide
  exact (c4_pass2_loose_edges 0 _ _ 1 [] _).2 rfl
    (by with_unfolding_all decide) (by decide) hsome ⟨0, 1, 1, 0, none⟩
    (by with_unfolding_all decide)

/-!
Door connectivity (claim C3).  A Door resolves up to two Rooms, one per
side (`Door.rooms`, a two-slot list indexed by the opening side); a Room's
`connected_rooms` maps each Door of its door set through the far-side
rule `d.rooms[1] if d.rooms[0] == self else d.rooms[0]`. -/

/-- The two side slots of `WallOpening.rooms`, holding the Room resolved on
side 0 and on side 1 (`None` when unresolved).  Rooms are identified by
id. -/
structure DoorRooms where
  side0 : Option ℕ
  side1 : Option ℕ
deriving DecidableEq, Repr

/-- Embedding of `Room.connected_rooms()`: one entry per Door of the
Room's door set, `d.rooms[1]` when `d.rooms[0]` is this Room and
`d.rooms[0]` otherwise. -/
def connected_rooms (selfId : ℕ) (doors : List DoorRooms) : List (Option ℕ) :=
  doors.map (fun d => if d.side0 = some selfId then d.side1 else d.side0)

/-- Counterexample for C3 as stated: a Room (id 0) whose door set holds one
Door resolved only on side 0 (an exterior-facing opening).  The claim
predicts that this Door contributes no entry at all, i.e. an empty result;
the code returns the one-entry list `[None]`. -/
theorem c3_counterexample :
    connected_rooms 0 [⟨some 0, none⟩] = [none] ∧
    connected_rooms 0 [⟨some 0, none⟩] ≠ [] := by
  constructor <;> decide

/-- C3 (amended): `connected_rooms()` returns exactly one entry per Door
attached to the Room — the far-side rule applied to that Door — and a Door
that references the Room but has fewer than two resolved sides contributes
the entry `None` (an unresolved far side), not the absence of an entry. -/
theorem c3_connected_rooms_entries (selfId : ℕ) (doors : List DoorRooms) :
    (connected_rooms selfId doors).length = doors.length ∧
    (∀ d ∈ doors,
      (if d.side0 = some selfId then d.side1 else d.side0) ∈
        connected_rooms selfId doors) ∧
    (∀ d : DoorRooms, (d.side0 = some selfId ∨ d.side1 = some selfId) →
      ¬ (d.side0.isSome ∧ d.side1.isSome) →
      (if d.side0 = some selfId then d.side1 else d.side0) = none) := by
  refine ⟨List.length_map doors _, ?_, ?_⟩
  · intro d hd
    exact List.mem_map.mpr ⟨d, hd, rfl⟩
  · intro d hside hnot
    by_cases h0 : d.side0 = some selfId
    · rw [if_pos h0]
      cases h1 : d.side1 with
      | none => rfl
      | some v =>
        exact absurd ⟨by rw [h0]; rfl, by rw [h1]; rfl⟩ hnot
    · rw [if_neg h0]
      have h1 : d.side1 = some selfId := hside.resolve_left h0
      cases h0v : d.side0 with
      | none => rfl
      | some v =>
        exact absurd ⟨by rw [h0v]; rfl, by rw [h1]; rfl⟩ hnot

/-- Witness for C3 (amended) at a concrete door set: one fully resolved
Door `(0, 5)` and, for the unresolved rule, the half-resolved Door
`(0, None)`. -/
theorem c3_connected_rooms_entries_witness :
    (connected_rooms 0 [⟨some 0, some 5⟩]).length = 1 ∧
    (if (⟨some 0, some 5⟩ : DoorRooms).side0 = some 0
      then (⟨some 0, some 5⟩ : DoorRooms).side1
      else (⟨some 0, some 5⟩ : DoorRooms).side0) ∈
        connected_rooms 0 [⟨some 0, some 5⟩] ∧
    (if (⟨some 0, none⟩ : DoorRooms).side0 = some 0
      then (⟨some 0, none⟩ : DoorRooms).side1
      else (⟨some 0, none⟩ : DoorRooms).side0) = none :=
  ⟨(c3_connected_rooms_entries 0 [⟨some 0, some 5⟩]).1,
    (c3_connected_rooms_entries 0 [⟨some 0, some 5⟩]).2.1 ⟨some 0, some 5⟩
      (List.mem_singleton.mpr rfl),
    (c3_connected_rooms_entries 0 []).2.2 ⟨some 0, none⟩ (Or.inl rfl)
      (by decide)⟩

/-!
Zero-length collinear corner intersections (claim C10). -/

theorem isclose_self (a : ℚ) : isclose a a = true := by
  rw [isclose]
  simp only [sub_self, abs_zero, decide_eq_true_eq]
  exact le_max_of_le_right (by norm_num [ABS_TOL])

theorem lineS_spec (s : LineSegment) (l : Line) (h : s.lineS = some l) :
    s.start ≠ s.endp ∧
      l = ⟨s.start.y - s.endp.y, s.endp.x - s.start.x,
        s.start.x * s.endp.y - s.endp.x * s.start.y⟩ := by
  rw [LineSegment.lineS, Line.through_points] at h
  by_cases heq : s.start = s.endp
  · rw [if_pos heq] at h
    cases h
  · rw [if_neg heq] at h
    exact ⟨heq, (Option.some_injective _ h).symm⟩

theorem contains_pointB_start (s : LineSegment) (l : Line)
    (h : s.lineS = some l) : l.contains_pointB s.start = true := by
  obtain ⟨-, hl⟩ := lineS_spec s l h
  rw [hl, Line.contains_pointB]
  rw [show (s.start.y - s.endp.y) * s.start.x + (s.endp.x - s.start.x) * s.start.y +
    (s.start.x * s.endp.y - s.endp.x * s.start.y) = 0 by ring]
  exact isclose_self 0

theorem containsB_of_self (d : Domain) : d.containsB d.start = true := by
  rw [Domain.containsB]
  have h1 : d.start ≥ d.dmin := min_le_left _ _
  have h2 : d.start ≤ d.dmax := le_max_left _ _
  simp [h1, h2]

theorem is_in_range_start (s : LineSegment) : s.is_in_range s.start = true := by
  rw [LineSegment.is_in_range]
  rw [show s.xDom.containsB s.start.x = s.xDom.containsB s.xDom.start from rfl]
  rw [show s.yDom.containsB s.start.y = s.yDom.containsB s.yDom.start from rfl]
  rw [containsB_of_self, containsB_of_self]
  rfl

theorem contains_pointS_own_start (s : LineSegment) (l : Line)
    (h : s.lineS = some l) : s.contains_pointS s.start = some true := by
  rw [LineSegment.contains_pointS, h]
  simp only [Option.bind_eq_bind, Option.some_bind, Option.bind_some]
  rw [contains_pointB_start s l h, is_in_range_start s]
  rfl

/-- C10: two collinear LineSegments (with tolerant-equal carrier lines)
that share exactly one endpoint — the second segment starts where the
first ends, and no other endpoint of either lies on the other —
intersect in the zero-length segment at the shared point, and pass 1 of
adjacency detection treats this segment result as a valid adjacency
and records the mirrored pair. -/
theorem c10_corner_intersection (s o : LineSegment) (sl ol : Line)
    (hsl : s.lineS = some sl) (hol : o.lineS = some ol)
    (heq : sl.eqB ol = true) (hshare : o.start = s.endp)
    (hc1 : s.contains_pointS o.start = some true)
    (hc2 : s.contains_pointS o.endp = some false)
    (hc3 : o.contains_pointS s.start = some false) :
    s.intersectS o = some (.seg ⟨s.endp, s.endp⟩) ∧
    ∀ st : AdjState, find_adjacencies 0 ⟨.room, [s]⟩ [(1, ⟨.room, [o]⟩)] st =
      some (st ++ [⟨0, 1, 0, 0, some ⟨s.endp, s.endp⟩⟩,
        AdjRec.mirror ⟨0, 1, 0, 0, some ⟨s.endp, s.endp⟩⟩]) := by
  have hc4 : o.contains_pointS s.endp = some true := by
    rw [← hshare]
    exact contains_pointS_own_start o ol hol
  have hinter : s.intersectS o = some (.seg ⟨s.endp, s.endp⟩) := by
    rw [LineSegment.intersectS, hsl, hol]
    simp only [Option.bind_eq_bind, Option.some_bind, Option.bind_some]
    rw [if_pos heq]
    rw [LineSegment.collectOverlap, hc1]
    simp only [Option.bind_eq_bind, Option.some_bind, Option.bind_some, if_pos]
    rw [LineSegment.collectOverlap, hc2]
    simp only [Option.bind_eq_bind, Option.some_bind, Option.bind_some,
      Bool.false_eq_true, reduceIte]
    rw [LineSegment.collectOverlap, hc3]
    simp only [Option.bind_eq_bind, Option.some_bind, Option.bind_some,
      Bool.false_eq_true, reduceIte]
    rw [LineSegment.collectOverlap, hc4]
    simp only [Option.bind_eq_bind, Option.some_bind, Option.bind_some, reduceIte]
    rw [hshare]
  refine ⟨hinter, ?_⟩
  intro st
  have hpairs : (⟨.room, [s]⟩ : Entity).eligiblePairs = [(0, s)] := rfl
  have hpairso : (⟨.room, [o]⟩ : Entity).eligiblePairs = [(0, o)] := rfl
  rw [find_adjacencies, hpairs, find_adjacencies.go, findAdjMid, hpairso,
    findAdjInner, hinter]
  simp only [Option.bind_eq_bind, Option.some_bind, Option.bind_some]
  rw [findAdjInner]
  simp only [Option.bind_eq_bind, Option.some_bind, Option.bind_some]
  rw [findAdjMid]
  simp only [Option.bind_eq_bind, Option.some_bind, Option.bind_some]
  rw [find_adjacencies.go, add_pair_eq]

/-- Witness for C10 at the collinear segments `(0,0)-(1,0)` and
`(1,0)-(2,0)` sharing the single point `(1,0)`. -/
theorem c10_corner_intersection_witness :
    (⟨⟨0, 0⟩, ⟨1, 0⟩⟩ : LineSegment).intersectS ⟨⟨1, 0⟩, ⟨2, 0⟩⟩ =
      some (.seg ⟨⟨1, 0⟩, ⟨1, 0⟩⟩) ∧
    find_adjacencies 0 ⟨.room, [⟨⟨0, 0⟩, ⟨1, 0⟩⟩]⟩
        [(1, ⟨.room, [⟨⟨1, 0⟩, ⟨2, 0⟩⟩]⟩)] [] =
      some [⟨0, 1, 0, 0, some ⟨⟨1, 0⟩, ⟨1, 0⟩⟩⟩,
        AdjRec.mirror ⟨0, 1, 0, 0, some ⟨⟨1, 0⟩, ⟨1, 0⟩⟩⟩] := by
  have h := c10_corner_intersection ⟨⟨0, 0⟩, ⟨1, 0⟩⟩ ⟨⟨1, 0⟩, ⟨2, 0⟩⟩
    ⟨0 - 0, 1 - 0, 0 * 0 - 1 * 0⟩ ⟨0 - 0, 2 - 1, 1 * 0 - 2 * 0⟩
    (by with_unfolding_all decide) (by with_unfolding_all decide)
    (by with_unfolding_all decide) rfl
    (by with_unfolding_all decide) (by with_unfolding_all decide)
    (by with_unfolding_all decide)
  exact ⟨h.1, h.2 []⟩

/-!
Opening resolution (claim C2).  `Wall.add_adjacency` first appends the
adjacency record like every `PlanObject`, then, when the partner is a Room,
re-checks every owned opening against that Room via
`WallOpening.check_adjacencies(room, room_edge_index)`.  The check loop
iterates the opening's OWN edge indices `[0, 2]` — it never sees the wall
face edge index of the event — and for every close opening edge `f`
records the Room on the opening side `f // 2` and adds the opening to the
Room's door set (`Door.add_adjacency`) or window set
(`Window.add_adjacency`). -/

/-- Kind of a wall opening: `Door` or `Window`. -/
inductive OpeningKind where
  | door
  | window
deriving DecidableEq, Repr

/-- A wall opening: its kind, its polygon edges, and the two slots of
`WallOpening.rooms` (the Room id resolved on side 0 and side 1). -/
structure OpeningM where
  kind : OpeningKind
  edges : List LineSegment
  side0 : Option ℕ
  side1 : Option ℕ
deriving DecidableEq, Repr

/-- Embedding of `WallOpening.check_adjacencies(room, room_edge_index)`
together with `Door.add_adjacency` / `Window.add_adjacency`: fetch the
Room's edge, test the opening's edges 0 and 2 against it with
`CLOSE_EDGE_TOLERANCE`, record the Room on side `self_edge_index // 2` on
success.  The returned flag says whether `add_adjacency` ran at least once,
i.e. whether the opening was added to the Room's door set (for a Door) or
window set (for a Window); the add is a Python `set.add`, so once is
enough.  `none` is an exception (index error or a failing `is_close`). -/
def check_adjacencies (op : OpeningM) (roomId : ℕ)
    (roomEdges : List LineSegment) (room_edge_index : ℕ) :
    Option (OpeningM × Bool) := do
  let room_edge ← roomEdges.get? room_edge_index
  let e0 ← op.edges.get? 0
  let b0 ← e0.is_closeS room_edge CLOSE_EDGE_TOLERANCE
  let op1 := if b0 then { op with side0 := some roomId } else op
  let e2 ← op1.edges.get? 2
  let b2 ← e2.is_closeS room_edge CLOSE_EDGE_TOLERANCE
  let op2 := if b2 then { op1 with side1 := some roomId } else op1
  return (op2, b0 || b2)

/-- Embedding of `Wall.add_adjacency`: append the record as the base class
does, then, when the partner object is a Room, run
`check_adjacencies(object, object_edge_index)` on every owned opening.
Returns the new adjacency state, the new opening states, and for each
opening the flag saying it was added to the Room's door/window set. -/
def wall_add_adjacency (wallId : ℕ) (openings : List OpeningM)
    (objIsRoom : Bool) (objId : ℕ) (roomEdges : List LineSegment)
    (self_edge_index object_edge_index : ℕ) (intersection : Option LineSegment)
    (st : AdjState) : Option (AdjState × List OpeningM × List Bool) :=
  let st2 := add_adjacency st wallId objId self_edge_index object_edge_index
    intersection
  if objIsRoom then do
    let results ← openings.mapM
      (fun op => check_adjacencies op objId roomEdges object_edge_index)
    return (st2, results.map Prod.fst, results.map Prod.snd)
  else
    some (st2, openings, openings.map (fun _ => false))

/-- Formalisation of the per-event rule exactly as claim C2 states it: on a
wall face edge event `e`, an opening tests only its own edge with the same
index `e` and, on success, records the Room on side `e / 2`. -/
def check_adjacencies_claim (op : OpeningM) (roomId : ℕ)
    (roomEdges : List LineSegment) (room_edge_index : ℕ) (e : ℕ) :
    Option (OpeningM × Bool) := do
  let room_edge ← roomEdges.get? room_edge_index
  let se ← op.edges.get? e
  let b ← se.is_closeS room_edge CLOSE_EDGE_TOLERANCE
  if b then
    if e / 2 = 0 then return ({ op with side0 := some roomId }, true)
    else return ({ op with side1 := some roomId }, true)
  else return (op, false)

/-- Thin-wall opening used by the C2 counterexample: the rectangle
`[0, 1/2] x [1, 2]` carved from a wall of thickness `1/2`; edge 0 is its
left face, edge 2 its right face. -/
def opC2 : OpeningM :=
  ⟨.door, Polygon.edges ⟨[⟨0, 1⟩, ⟨0, 2⟩, ⟨1/2, 2⟩, ⟨1/2, 1⟩]⟩, none, none⟩

/-- Counterexample for C2 as stated: on a Room-to-Wall adjacency event on
wall face edge `e = 0`, with the Room's edge running along `x = 0` and a
wall only `1/2` unit thick, the code also tests the opening's edge 2
(distance `1/2 < CLOSE_EDGE_TOLERANCE`) and records the Room on side 1;
the claim's only-edge-`e` rule leaves side 1 unresolved. -/
theorem c2_counterexample :
    (check_adjacencies opC2 7 [⟨⟨0, 4⟩, ⟨0, 0⟩⟩] 0).map (fun r => r.1.side1) =
      some (some 7) ∧
    (check_adjacencies_claim opC2 7 [⟨⟨0, 4⟩, ⟨0, 0⟩⟩] 0 0).map
        (fun r => r.1.side1) = some none := by
  constructor <;> with_unfolding_all decide

theorem check_adjacencies_eq (op : OpeningM) (roomId : ℕ)
    (roomEdges : List LineSegment) (j : ℕ) (redge e0 e2 : LineSegment)
    (b0 b2 : Bool)
    (hredge : roomEdges.get? j = some redge)
    (he0 : op.edges.get? 0 = some e0) (he2 : op.edges.get? 2 = some e2)
    (hb0 : e0.is_closeS redge CLOSE_EDGE_TOLERANCE = some b0)
    (hb2 : e2.is_closeS redge CLOSE_EDGE_TOLERANCE = some b2) :
    check_adjacencies op roomId roomEdges j = some
      ({ op with side0 := if b0 then some roomId else op.side0,
                 side1 := if b2 then some roomId else op.side1 }, b0 || b2) := by
  rw [check_adjacencies, hredge]
  simp only [Option.bind_eq_bind, Option.some_bind, Option.bind_some]
  rw [he0]
  simp only [Option.bind_eq_bind, Option.some_bind, Option.bind_some]
  rw [hb0]
  simp only [Option.bind_eq_bind, Option.some_bind, Option.bind_some]
  cases b0 <;> cases b2 <;>
    simp only [reduceIte, Bool.false_eq_true] <;>
    rw [he2] <;>
    simp only [Option.bind_eq_bind, Option.some_bind, Option.bind_some] <;>
    rw [hb2] <;>
    simp only [Option.bind_eq_bind, Option.some_bind, Option.bind_some,
      reduceIte, Bool.false_eq_true, Bool.false_or, Bool.true_or] <;>
    rfl

/-- C2 (amended): on a Room-to-Wall adjacency event on wall face edge `e`
(0 or 2), each Opening owned by the wall tests BOTH of its own edges 0 and
2 — the event's wall edge index plays no role in the opening check —
against the Room's adjacent edge with `CLOSE_EDGE_TOLERANCE`; for each
close opening edge `f` the Room is recorded on the Opening's side `f / 2`,
and the Opening joins the Room's door set (for a Door) or window set (for
a Window) exactly when at least one of the two edges is close.  The wall
itself gains the usual adjacency record with edge indices `(e, j)`. -/
theorem c2_wall_event_openings (wallId objId e j : ℕ)
    (intersection : Option LineSegment) (st : AdjState) (op : OpeningM)
    (roomEdges : List LineSegment) (redge e0 e2 : LineSegment) (b0 b2 : Bool)
    (hredge : roomEdges.get? j = some redge)
    (he0 : op.edges.get? 0 = some e0) (he2 : op.edges.get? 2 = some e2)
    (hb0 : e0.is_closeS redge CLOSE_EDGE_TOLERANCE = some b0)
    (hb2 : e2.is_closeS redge CLOSE_EDGE_TOLERANCE = some b2) :
    wall_add_adjacency wallId [op] true objId roomEdges e j intersection st =
      some (add_adjacency st wallId objId e j intersection,
        [{ op with side0 := if b0 then some objId else op.side0,
                   side1 := if b2 then some objId else op.side1 }],
        [b0 || b2]) := by
  rw [wall_add_adjacency]
  simp only [reduceIte, List.mapM_cons, List.mapM_nil]
  rw [check_adjacencies_eq op objId roomEdges j redge e0 e2 b0 b2 hredge he0
    he2 hb0 hb2]
  simp only [Option.bind_eq_bind, Option.some_bind, Option.bind_some,
    Option.pure_def]
  rfl

/-- Witness for C2 (amended) at the thin-wall configuration: both opening
edges are close to the Room edge, so the Room is recorded on both sides
and the Door joins the Room's door set. -/
theorem c2_wall_event_openings_witness :
    wall_add_adjacency 3 [opC2] true 7 [⟨⟨0, 4⟩, ⟨0, 0⟩⟩] 0 0 none [] =
      some (add_adjacency [] 3 7 0 0 none,
        [{ opC2 with side0 := if true then some 7 else opC2.side0,
                     side1 := if true then some 7 else opC2.side1 }],
        [true || true]) :=
  c2_wall_event_openings 3 7 0 0 none [] opC2 [⟨⟨0, 4⟩, ⟨0, 0⟩⟩]
    ⟨⟨0, 4⟩, ⟨0, 0⟩⟩ ⟨⟨0, 1⟩, ⟨0, 2⟩⟩ ⟨⟨1/2, 2⟩, ⟨1/2, 1⟩⟩ true true
    (by decide) (by with_unfolding_all decide) (by with_unfolding_all decide)
    (by with_unfolding_all decide) (by with_unfolding_all decide)

/-!
Closeness counting (claim C5): `is_close` returns true exactly when at
least two of the four (edge, opposite endpoint) distance tests succeed. -/

theorem isCloseAux_eval (t : ℚ) (pairs : List (LineSegment × Point))
    (bs : List Bool)
    (hf : List.Forall₂ (fun (pr : LineSegment × Point) (b : Bool) =>
      pr.1.distLtS pr.2 t = some b) pairs bs) :
    ∀ n : ℕ, n ≤ 1 →
      LineSegment.isCloseAux t pairs n = some (decide (2 ≤ n + bs.count true)) := by
  induction hf with
  | nil =>
    intro n hn
    rw [LineSegment.isCloseAux]
    simp only [List.count_nil, Nat.add_zero]
    rw [decide_eq_false (by omega : ¬ 2 ≤ n)]
  | @cons pr b rest brest hpr hrest ih =>
    intro n hn
    rw [show (pr :: rest : List (LineSegment × Point)) =
      (pr.1, pr.2) :: rest by rfl]
    rw [LineSegment.isCloseAux, hpr]
    simp only [Option.bind_eq_bind, Option.some_bind, Option.bind_some]
    cases b with
    | true =>
      simp only [reduceIte]
      by_cases h2 : n + 1 = 2
      · rw [if_pos h2]
        have hc : 2 ≤ n + List.count true (true :: brest) := by
          rw [List.count_cons]
          simp only [beq_self_eq_true, reduceIte]
          omega
        rw [decide_eq_true hc]
      · rw [if_neg h2]
        rw [ih (n + 1) (by omega)]
        have hiff : (2 ≤ n + 1 + brest.count true) ↔
            (2 ≤ n + List.count true (true :: brest)) := by
          rw [List.count_cons]
          simp only [beq_self_eq_true, reduceIte]
          omega
        rw [decide_eq_decide.mpr hiff]
    | false =>
      simp only [Bool.false_eq_true, reduceIte]
      rw [ih n hn]
      have hiff : (2 ≤ n + brest.count true) ↔
          (2 ≤ n + List.count true (false :: brest)) := by
        rw [List.count_cons]
        simp
      rw [decide_eq_decide.mpr hiff]

/-- C5: whenever the four distance tests of
`LineSegment.is_close(other, tolerance)` — from `other.start` to `self`,
from `other.end` to `self`, from `self.start` to `other`, and from
`self.end` to `other` — evaluate to `b1, b2, b3, b4`, the call returns
true exactly when at least two of them hold; in particular a configuration
with exactly one distance under the tolerance is not classified close. -/
theorem c5_is_close_two_of_four (s o : LineSegment) (t : ℚ) (b1 b2 b3 b4 : Bool)
    (h1 : s.distLtS o.start t = some b1) (h2 : s.distLtS o.endp t = some b2)
    (h3 : o.distLtS s.start t = some b3) (h4 : o.distLtS s.endp t = some b4) :
    s.is_closeS o t =
      some (decide (2 ≤ List.count true [b1, b2, b3, b4])) ∧
    (List.count true [b1, b2, b3, b4] = 1 → s.is_closeS o t = some false) := by
  have hall : List.Forall₂ (fun (pr : LineSegment × Point) (b : Bool) =>
      pr.1.distLtS pr.2 t = some b)
      [(s, o.start), (s, o.endp), (o, s.start), (o, s.endp)] [b1, b2, b3, b4] :=
    List.Forall₂.cons h1 (List.Forall₂.cons h2 (List.Forall₂.cons h3
      (List.Forall₂.cons h4 List.Forall₂.nil)))
  have hmain : s.is_closeS o t =
      some (decide (2 ≤ List.count true [b1, b2, b3, b4])) := by
    rw [LineSegment.is_closeS]
    rw [isCloseAux_eval t _ _ hall 0 (by omega)]
    rw [Nat.zero_add]
  refine ⟨hmain, ?_⟩
  intro hone
  rw [hmain, hone]
  rfl

/-- Witness for C5: the horizontal segment `(0,0)-(4,0)` against the
vertical segment `(2, 1/2)-(2, 5)`; only the first of the four distances
(`other.start` to `self`, namely `1/2`) is below the tolerance 1, so the
segments are not close. -/
theorem c5_is_close_two_of_four_witness :
    (⟨⟨0, 0⟩, ⟨4, 0⟩⟩ : LineSegment).is_closeS ⟨⟨2, 1/2⟩, ⟨2, 5⟩⟩ 1 =
      some (decide (2 ≤ List.count true [true, false, false, false])) ∧
    (List.count true [true, false, false, false] = 1 →
      (⟨⟨0, 0⟩, ⟨4, 0⟩⟩ : LineSegment).is_closeS ⟨⟨2, 1/2⟩, ⟨2, 5⟩⟩ 1 =
        some false) :=
  c5_is_close_two_of_four ⟨⟨0, 0⟩, ⟨4, 0⟩⟩ ⟨⟨2, 1/2⟩, ⟨2, 5⟩⟩ 1
    true false false false
    (by with_unfolding_all decide) (by with_unfolding_all decide)
    (by with_unfolding_all decide) (by with_unfolding_all decide)

/-!
Ray-cast containment (claim C6): the code's crossing test agrees, on
polygons without degenerate edges, with the specification's rule — count an
edge when the carrier line's y-value at `p.x` is defined, at or above
`p.y`, and the edge-local position of the intersection lies in `[0, 1)`;
the point is inside iff the count is odd. -/

theorem position_frac_eq (sx sy ex ey qx qy : ℚ) (hx : ex - sx ≠ 0)
    (hy : ey - sy ≠ 0)
    (hq : (sy - ey) * qx + (ex - sx) * qy + (sx * ey - ex * sy) = 0) :
    (qx - sx) / (ex - sx) = (qy - sy) / (ey - sy) := by
  field_simp
  linear_combination -hq

theorem solve_eq_spec (sx sy ex ey x : ℚ) (hx : ex - sx ≠ 0) :
    ((sy - ey) * x + (sx * ey - ex * sy)) / -(ex - sx) =
      sy + (x - sx) * (ey - sy) / (ex - sx) := by
  have hx2 : sx - ex ≠ 0 := fun h => hx (by linarith)
  field_simp
  ring

theorem yval_online (sx sy ex ey x : ℚ) (hx : ex - sx ≠ 0) :
    (sy - ey) * x + (ex - sx) * (sy + (x - sx) * (ey - sy) / (ex - sx)) +
      (sx * ey - ex * sy) = 0 := by
  field_simp
  ring

theorem positionP_val (s : LineSegment) (q : Point) (hx : s.endp.x ≠ s.start.x)
    (hq : (s.start.y - s.endp.y) * q.x + (s.endp.x - s.start.x) * q.y +
      (s.start.x * s.endp.y - s.endp.x * s.start.y) = 0) :
    s.positionP q = some (.val ((q.x - s.start.x) / (s.endp.x - s.start.x))) := by
  rw [LineSegment.positionP]
  simp only [LineSegment.xDom, LineSegment.yDom, Domain.positionF]
  rw [if_neg hx]
  by_cases hy : s.endp.y = s.start.y
  · rw [if_pos hy]
    by_cases hcont : Domain.containsB ⟨s.start.y, s.endp.y⟩ q.y = true
    · rw [if_pos hcont]
      simp [FloatVal.isInf]
    · rw [if_neg hcont]
      simp [FloatVal.isInf]
  · rw [if_neg hy]
    have hsub : s.endp.x - s.start.x ≠ 0 := sub_ne_zero.mpr hx
    have hsuby : s.endp.y - s.start.y ≠ 0 := sub_ne_zero.mpr hy
    have heq := position_frac_eq s.start.x s.start.y s.endp.x s.endp.y q.x q.y
      hsub hsuby hq
    simp only [FloatVal.isInf, Bool.false_eq_true, reduceIte]
    rw [← heq, isclose_self]
    rfl

/-- Modelled from the specification's ray-cast rule: an edge `(v, w)`
counts as a crossing for point `p` iff the edge is non-vertical (the
carrier line's y-value at `p.x` is defined), that y-value is at or above
`p.y`, and the edge-local position of the intersection lies in `[0, 1)`. -/
def crossesB (p : Point) (q : Point × Point) : Bool :=
  decide (q.1.x ≠ q.2.x ∧
    p.y ≤ q.1.y + (p.x - q.1.x) * (q.2.y - q.1.y) / (q.2.x - q.1.x) ∧
    0 ≤ (p.x - q.1.x) / (q.2.x - q.1.x) ∧
    (p.x - q.1.x) / (q.2.x - q.1.x) < 1)

/-- Modelled from the specification: the point is inside iff the crossing
count over all edges is odd. -/
def contains_point_spec (poly : Polygon) (p : Point) : Bool :=
  (poly.pairs_of_vertices.countP (crossesB p)) % 2 = 1

theorem containsAux_count (p : Point) :
    ∀ (edges : List LineSegment) (n : ℕ),
      (∀ e ∈ edges, e.start ≠ e.endp) →
      Polygon.containsAux p edges n =
        some (n + edges.countP (fun e => crossesB p (e.start, e.endp)))
  | [], n, _ => by
    rw [Polygon.containsAux]
    simp
  | e :: rest, n, hnd => by
    have hne : e.start ≠ e.endp := hnd e (List.mem_cons_self _ _)
    have hrest : ∀ x ∈ rest, x.start ≠ x.endp := fun x hx =>
      hnd x (List.mem_cons_of_mem _ hx)
    have hl : e.lineS = some ⟨e.start.y - e.endp.y, e.endp.x - e.start.x,
        e.start.x * e.endp.y - e.endp.x * e.start.y⟩ := by
      rw [LineSegment.lineS, Line.through_points, if_neg hne]
    rw [Polygon.containsAux, hl]
    simp only [Option.bind_eq_bind, Option.some_bind, Option.bind_some]
    rw [List.countP_cons]
    by_cases hx : e.endp.x = e.start.x
    · have hb : e.endp.x - e.start.x = 0 := by rw [hx]; ring
      have hcross : crossesB p (e.start, e.endp) = false := by
        rw [crossesB]
        simp only [decide_eq_false_iff_not]
        intro hcon
        exact hcon.1 hx.symm
      rw [Line.solve_for_y]
      simp only [hb, reduceIte, if_pos]
      by_cases hc : p.x = -(e.start.x * e.endp.y - e.endp.x * e.start.y)
      · rw [if_pos hc]
        rw [containsAux_count p rest n hrest, hcross]
        simp
      · rw [if_neg hc]
        rw [containsAux_count p rest n hrest, hcross]
        simp
    · have hsub : e.endp.x - e.start.x ≠ 0 := sub_ne_zero.mpr hx
      have hsolve : Line.solve_for_y ⟨e.start.y - e.endp.y,
          e.endp.x - e.start.x, e.start.x * e.endp.y - e.endp.x * e.start.y⟩
          p.x = .val (e.start.y +
            (p.x - e.start.x) * (e.endp.y - e.start.y) /
              (e.endp.x - e.start.x)) := by
        rw [Line.solve_for_y, if_neg hsub]
        exact congrArg FloatVal.val
          (solve_eq_spec e.start.x e.start.y e.endp.x e.endp.y p.x hsub)
      rw [hsolve]
      dsimp only
      by_cases hge : e.start.y + (p.x - e.start.x) * (e.endp.y - e.start.y) /
          (e.endp.x - e.start.x) ≥ p.y
      · rw [if_pos hge]
        have hpos := positionP_val e ⟨p.x, e.start.y +
          (p.x - e.start.x) * (e.endp.y - e.start.y) / (e.endp.x - e.start.x)⟩
          hx (yval_online e.start.x e.start.y e.endp.x e.endp.y p.x hsub)
        rw [hpos]
        dsimp only
        rw [containsAux_count p rest _ hrest]
        have hgelt : FloatVal.ge0lt1 (.val ((p.x - e.start.x) /
            (e.endp.x - e.start.x))) =
          decide (0 ≤ (p.x - e.start.x) / (e.endp.x - e.start.x) ∧
            (p.x - e.start.x) / (e.endp.x - e.start.x) < 1) := rfl
      -- case split on the position condition
        by_cases hio : 0 ≤ (p.x - e.start.x) / (e.endp.x - e.start.x) ∧
            (p.x - e.start.x) / (e.endp.x - e.start.x) < 1
        · have hcross : crossesB p (e.start, e.endp) = true := by
            rw [crossesB]
            exact decide_eq_true ⟨fun hcon => hx hcon.symm, hge, hio⟩
          rw [hgelt, decide_eq_true hio, hcross]
          simp only [reduceIte]
          rw [show n + 1 + List.countP (fun e => crossesB p (e.start, e.endp))
            rest = n + (List.countP (fun e => crossesB p (e.start, e.endp))
              rest + 1) by omega]
        · have hcross : crossesB p (e.start, e.endp) = false := by
            rw [crossesB]
            simp only [decide_eq_false_iff_not]
            intro hcon
            exact hio ⟨hcon.2.2.1, hcon.2.2.2⟩
          rw [hgelt, decide_eq_false hio, hcross]
          simp
      · rw [if_neg hge]
        have hcross : crossesB p (e.start, e.endp) = false := by
          rw [crossesB]
          simp only [decide_eq_false_iff_not]
          intro hcon
          exact hge hcon.2.1
        rw [containsAux_count p rest n hrest, hcross]
        simp

/-- C6: on every polygon without degenerate edges, `Polygon.contains_point`
implements the half-open upward ray-cast: an edge counts as a crossing iff
its carrier line's y-value at `p.x` is defined, at or above `p.y`, and the
edge-local position of the intersection lies in `[0, 1)`; the point is
inside iff the crossing count is odd.  For the square
`(0,0), (4,0), (4,4), (0,4)`, the point `(2,2)` is inside and `(5,5)` is
outside. -/
theorem c6_contains_point_raycast (poly : Polygon) (p : Point)
    (hnd : ∀ q ∈ poly.pairs_of_vertices, q.1 ≠ q.2) :
    poly.contains_point p = some (contains_point_spec poly p) ∧
    Polygon.contains_point ⟨[⟨0, 0⟩, ⟨4, 0⟩, ⟨4, 4⟩, ⟨0, 4⟩]⟩ ⟨2, 2⟩ =
      some true ∧
    Polygon.contains_point ⟨[⟨0, 0⟩, ⟨4, 0⟩, ⟨4, 4⟩, ⟨0, 4⟩]⟩ ⟨5, 5⟩ =
      some false := by
  refine ⟨?_, by with_unfolding_all decide, by with_unfolding_all decide⟩
  rw [Polygon.contains_point]
  have hedges : ∀ e ∈ poly.edges, e.start ≠ e.endp := by
    intro e he
    rw [Polygon.edges] at he
    obtain ⟨q, hq, hmk⟩ := List.mem_map.mp he
    intro hcon
    apply hnd q hq
    rw [← hmk] at hcon
    exact hcon
  rw [containsAux_count p poly.edges 0 hedges]
  rw [Polygon.edges, List.countP_map]
  rw [show ((fun e : LineSegment => crossesB p (e.start, e.endp)) ∘
    (fun q : Point × Point => (⟨q.1, q.2⟩ : LineSegment))) = crossesB p from
    funext fun q => rfl]
  rw [contains_point_spec, Nat.zero_add]
  rfl

/-- Witness for C6 at the square `(0,0), (4,0), (4,4), (0,4)` and the
interior point `(2,2)`: the code agrees with the specification's crossing
rule, which classifies the point as inside. -/
theorem c6_contains_point_raycast_witness :
    Polygon.contains_point ⟨[⟨0, 0⟩, ⟨4, 0⟩, ⟨4, 4⟩, ⟨0, 4⟩]⟩ ⟨2, 2⟩ =
      some (contains_point_spec ⟨[⟨0, 0⟩, ⟨4, 0⟩, ⟨4, 4⟩, ⟨0, 4⟩]⟩ ⟨2, 2⟩) ∧
    contains_point_spec ⟨[⟨0, 0⟩, ⟨4, 0⟩, ⟨4, 4⟩, ⟨0, 4⟩]⟩ ⟨2, 2⟩ = true :=
  ⟨(c6_contains_point_raycast ⟨[⟨0, 0⟩, ⟨4, 0⟩, ⟨4, 4⟩, ⟨0, 4⟩]⟩ ⟨2, 2⟩
      (by with_unfolding_all decide)).1,
    by with_unfolding_all decide⟩

/-!
Fixture-to-room containment (claim C8).  `Fixture.find_rooms` walks the
fixture polygon's vertices; for each vertex, `_find_room` first re-checks
the rooms already associated with the fixture (the keys of the
`self.rooms` dict, in insertion order) and, failing that, scans the floor's
rooms in order, skipping rooms already associated; the first room
containing the vertex is recorded via `add_room`, which also adds the
fixture to the room's `fixtures` set.  Rooms are identified by their index
in the floor's room list. -/

/-- One entry of the `Fixture.rooms` dict: the room's index, its polygon
(standing for the Room object used as the dict key), and the vertices
recorded under it. -/
structure FixtureEntry where
  roomIdx : ℕ
  poly : Polygon
  verts : List Point
deriving DecidableEq, Repr

/-- State of one fixture: the `rooms` dict (insertion order) and the set
of room indices whose `fixtures` set contains this fixture. -/
structure FixtureState where
  roomsAssoc : List FixtureEntry
  roomFixtures : List ℕ
deriving DecidableEq, Repr

/-- Embedding of `Fixture.add_room(room, vertex)`: create the dict entry on
first contact, append the vertex, and add the fixture to the room's
`fixtures` set (a Python set: adding an existing element is a no-op). -/
def add_room (st : FixtureState) (k : ℕ) (kpoly : Polygon) (v : Point) :
    FixtureState :=
  ⟨if st.roomsAssoc.any (fun en => en.roomIdx = k) then
      st.roomsAssoc.map (fun en =>
        if en.roomIdx = k then ⟨en.roomIdx, en.poly, en.verts ++ [v]⟩ else en)
    else st.roomsAssoc ++ [⟨k, kpoly, [v]⟩],
   if k ∈ st.roomFixtures then st.roomFixtures else st.roomFixtures ++ [k]⟩

/-- First loop of `Fixture._find_room`: scan the rooms already associated
with the fixture, in dict order, and return the first whose polygon
contains the vertex. -/
def findRoomLoop1 (v : Point) : List FixtureEntry → Option (Option (ℕ × Polygon))
  | [] => some none
  | en :: rest => do
    let c ← en.poly.contains_point v
    if c then some (some (en.roomIdx, en.poly)) else findRoomLoop1 v rest

/-- Second loop of `Fixture._find_room`: scan the floor's rooms in order,
skip the ones already associated (the `room not in self.rooms` test
short-circuits before the containment test), and return the first whose
polygon contains the vertex. -/
def findRoomLoop2 (st : FixtureState) (v : Point) :
    List (ℕ × Polygon) → Option (Option (ℕ × Polygon))
  | [] => some none
  | (k, kpoly) :: rest =>
    if st.roomsAssoc.any (fun en => en.roomIdx = k) then
      findRoomLoop2 st v rest
    else do
      let c ← kpoly.contains_point v
      if c then some (some (k, kpoly)) else findRoomLoop2 st v rest

/-- Embedding of `Fixture._find_room(rooms, vertex)`. -/
def find_room_ (rooms : List Polygon) (st : FixtureState) (v : Point) :
    Option FixtureState := do
  let r1 ← findRoomLoop1 v st.roomsAssoc
  match r1 with
  | some (k, kpoly) => some (add_room st k kpoly v)
  | none => do
    let r2 ← findRoomLoop2 st v rooms.enum
    match r2 with
    | some (k, kpoly) => some (add_room st k kpoly v)
    | none => some st

/-- Embedding of `Fixture.find_rooms(rooms)`: process every vertex of the
fixture's polygon. -/
def find_rooms (fpoly : Polygon) (rooms : List Polygon) (st : FixtureState) :
    Option FixtureState :=
  go fpoly.vertices st
where
  go : List Point → FixtureState → Option FixtureState
    | [], st => some st
    | v :: vs, st => do
      let st2 ← find_room_ rooms st v
      go vs st2

/-- A fixture state is well-formed for a room list when every dict entry's
polygon is the polygon of the room at the entry's index. -/
def FixtureWF (rooms : List Polygon) (st : FixtureState) : Prop :=
  ∀ en ∈ st.roomsAssoc, ∃ hk : en.roomIdx < rooms.length,
    en.poly = rooms[en.roomIdx]

/-- The fixture is associated with room `k` (there is a dict entry). -/
def KeyIn (st : FixtureState) (k : ℕ) : Prop :=
  st.roomsAssoc.any (fun en => en.roomIdx = k) = true

theorem KeyIn_add_room_self (st : FixtureState) (k : ℕ) (kp : Polygon)
    (v : Point) : KeyIn (add_room st k kp v) k := by
  rw [KeyIn, add_room]
  by_cases h : st.roomsAssoc.any (fun en => en.roomIdx = k) = true
  · rw [if_pos h]
    rw [List.any_eq_true] at h ⊢
    obtain ⟨en, hen, hk⟩ := h
    refine ⟨⟨en.roomIdx, en.poly, en.verts ++ [v]⟩, ?_, hk⟩
    refine List.mem_map.mpr ⟨en, hen, ?_⟩
    rw [if_pos (of_decide_eq_true hk)]
  · rw [if_neg h]
    rw [List.any_eq_true]
    exact ⟨⟨k, kp, [v]⟩, List.mem_append_right _ (List.mem_singleton.mpr rfl),
      by simp⟩

theorem KeyIn_add_room_mono (st : FixtureState) (k : ℕ) (kp : Polygon)
    (v : Point) (k2 : ℕ) (h2 : KeyIn st k2) : KeyIn (add_room st k kp v) k2 := by
  rw [KeyIn, add_room]
  rw [KeyIn, List.any_eq_true] at h2
  obtain ⟨en, hen, hk⟩ := h2
  by_cases h : st.roomsAssoc.any (fun en => en.roomIdx = k) = true
  · rw [if_pos h]
    rw [List.any_eq_true]
    by_cases hek : en.roomIdx = k
    · exact ⟨⟨en.roomIdx, en.poly, en.verts ++ [v]⟩,
        List.mem_map.mpr ⟨en, hen, by rw [if_pos hek]⟩, hk⟩
    · exact ⟨en, List.mem_map.mpr ⟨en, hen, by rw [if_neg hek]⟩, hk⟩

  · rw [if_neg h]
    rw [List.any_eq_true]
    exact ⟨en, List.mem_append_left _ hen, hk⟩

theorem fixtures_add_room_self (st : FixtureState) (k : ℕ) (kp : Polygon)
    (v : Point) : k ∈ (add_room st k kp v).roomFixtures := by
  rw [add_room]
  by_cases h : k ∈ st.roomFixtures
  · rw [if_pos h]
    exact h
  · rw [if_neg h]
    exact List.mem_append_right _ (List.mem_singleton.mpr rfl)

theorem fixtures_add_room_mono (st : FixtureState) (k : ℕ) (kp : Polygon)
    (v : Point) (k2 : ℕ) (h2 : k2 ∈ st.roomFixtures) :
    k2 ∈ (add_room st k kp v).roomFixtures := by
  rw [add_room]
  by_cases h : k ∈ st.roomFixtures
  · rw [if_pos h]
    exact h2
  · rw [if_neg h]
    exact List.mem_append_left _ h2

theorem FixtureWF_add_room (rooms : List Polygon) (st : FixtureState) (k : ℕ)
    (kp : Polygon) (v : Point) (hwf : FixtureWF rooms st)
    (hk : k < rooms.length) (hp : kp = rooms[k]) :
    FixtureWF rooms (add_room st k kp v) := by
  intro en hen
  rw [add_room] at hen
  by_cases h : st.roomsAssoc.any (fun en => en.roomIdx = k) = true
  · rw [if_pos h] at hen
    obtain ⟨en0, hen0, heq⟩ := List.mem_map.mp hen
    by_cases hek : en0.roomIdx = k
    · rw [if_pos hek] at heq
      obtain ⟨hb, hpoly⟩ := hwf en0 hen0
      rw [← heq]
      exact ⟨hb, hpoly⟩
    · rw [if_neg hek] at heq
      rw [← heq]
      exact hwf en0 hen0
  · rw [if_neg h] at hen
    rcases List.mem_append.mp hen with hen1 | hen1
    · exact hwf en hen1
    · rw [List.mem_singleton.mp hen1]
      exact ⟨hk, hp⟩

theorem findRoomLoop1_mem (u : Point) : ∀ (entries : List FixtureEntry)
    (k : ℕ) (p : Polygon), findRoomLoop1 u entries = some (some (k, p)) →
    ∃ en ∈ entries, en.roomIdx = k ∧ en.poly = p
  | [], k, p, h => by
    rw [findRoomLoop1] at h
    simp at h
  | en :: rest, k, p, h => by
    rw [findRoomLoop1] at h
    cases hc : en.poly.contains_point u with
    | none => rw [hc] at h; cases h
    | some c =>
      rw [hc] at h
      simp only [Option.bind_eq_bind, Option.some_bind, Option.bind_some] at h
      cases c with
      | true =>
        simp only [reduceIte, Option.some.injEq] at h
        obtain ⟨hk, hp⟩ := Prod.mk.injEq _ _ _ _ ▸ h
        exact ⟨en, List.mem_cons_self _ _, hk, hp⟩
      | false =>
        simp only [Bool.false_eq_true, reduceIte] at h
        obtain ⟨en2, hen2, hrest⟩ := findRoomLoop1_mem u rest k p h
        exact ⟨en2, List.mem_cons_of_mem _ hen2, hrest⟩

theorem findRoomLoop2_mem (st : FixtureState) (u : Point) :
    ∀ (list : List (ℕ × Polygon)) (k : ℕ) (p : Polygon),
      findRoomLoop2 st u list = some (some (k, p)) → (k, p) ∈ list
  | [], k, p, h => by
    rw [findRoomLoop2] at h
    simp at h
  | (k0, p0) :: rest, k, p, h => by
    rw [findRoomLoop2] at h
    by_cases hskip : st.roomsAssoc.any (fun en => en.roomIdx = k0) = true
    · rw [if_pos hskip] at h
      exact List.mem_cons_of_mem _ (findRoomLoop2_mem st u rest k p h)
    · rw [if_neg hskip] at h
      cases hc : p0.contains_point u with
      | none => rw [hc] at h; cases h
      | some c =>
        rw [hc] at h
        simp only [Option.bind_eq_bind, Option.some_bind, Option.bind_some] at h
        cases c with
        | true =>
          simp only [reduceIte, Option.some.injEq] at h
          rw [← h]
          exact List.mem_cons_self _ _
        | false =>
          simp only [Bool.false_eq_true, reduceIte] at h
          exact List.mem_cons_of_mem _ (findRoomLoop2_mem st u rest k p h)

theorem findRoomLoop1_none (u : Point) (a : ℕ) :
    ∀ entries : List FixtureEntry,
      (∀ en ∈ entries,
        en.poly.contains_point u = some (decide (en.roomIdx = a))) →
      (∀ en ∈ entries, en.roomIdx ≠ a) →
      findRoomLoop1 u entries = some none
  | [], _, _ => rfl
  | en :: rest, hc, hne => by
    rw [findRoomLoop1, hc en (List.mem_cons_self _ _)]
    simp only [Option.bind_eq_bind, Option.some_bind, Option.bind_some]
    rw [decide_eq_false (hne en (List.mem_cons_self _ _))]
    simp only [Bool.false_eq_true, reduceIte]
    exact findRoomLoop1_none u a rest
      (fun x hx => hc x (List.mem_cons_of_mem _ hx))
      (fun x hx => hne x (List.mem_cons_of_mem _ hx))

theorem findRoomLoop1_finds (u : Point) (a : ℕ) :
    ∀ entries : List FixtureEntry,
      (∀ en ∈ entries,
        en.poly.contains_point u = some (decide (en.roomIdx = a))) →
      (∃ en ∈ entries, en.roomIdx = a) →
      ∃ p, findRoomLoop1 u entries = some (some (a, p))
  | [], _, hex => absurd hex (by simp)
  | en :: rest, hc, hex => by
    rw [findRoomLoop1, hc en (List.mem_cons_self _ _)]
    simp only [Option.bind_eq_bind, Option.some_bind, Option.bind_some]
    by_cases hena : en.roomIdx = a
    · rw [decide_eq_true hena]
      simp only [reduceIte]
      exact ⟨en.poly, by rw [hena]⟩
    · rw [decide_eq_false hena]
      simp only [Bool.false_eq_true, reduceIte]
      refine findRoomLoop1_finds u a rest
        (fun x hx => hc x (List.mem_cons_of_mem _ hx)) ?_
      obtain ⟨en2, hen2, hena2⟩ := hex
      rcases List.mem_cons.mp hen2 with h | h
      · exact absurd (h ▸ hena2) hena
      · exact ⟨en2, h, hena2⟩

theorem findRoomLoop2_finds (st : FixtureState) (u : Point) (a : ℕ)
    (pa : Polygon) (hkey : ¬ KeyIn st a) :
    ∀ list : List (ℕ × Polygon),
      (∀ q ∈ list, q.1 ≠ a → q.2.contains_point u = some false) →
      (∀ q ∈ list, q.1 = a → q.2 = pa) →
      (pa.contains_point u = some true) →
      ((a, pa) ∈ list) →
      findRoomLoop2 st u list = some (some (a, pa))
  | [], _, _, _, hmem => absurd hmem (by simp)
  | (k0, p0) :: rest, hfalse, hpa, htrue, hmem => by
    rw [findRoomLoop2]
    by_cases hka : k0 = a
    · have hp0 : p0 = pa := hpa (k0, p0) (List.mem_cons_self _ _) hka
      have hskip : ¬ st.roomsAssoc.any (fun en => en.roomIdx = k0) = true := by
        rw [hka]
        exact hkey
      rw [if_neg hskip, hp0, htrue]
      simp only [Option.bind_eq_bind, Option.some_bind, Option.bind_some,
        reduceIte]
      rw [hka]
    · have hrec : findRoomLoop2 st u rest = some (some (a, pa)) := by
        refine findRoomLoop2_finds st u a pa hkey rest
          (fun q hq => hfalse q (List.mem_cons_of_mem _ hq))
          (fun q hq => hpa q (List.mem_cons_of_mem _ hq)) htrue ?_
        rcases List.mem_cons.mp hmem with h | h
        · cases h
          exact absurd rfl hka
        · exact h
      by_cases hskip : st.roomsAssoc.any (fun en => en.roomIdx = k0) = true
      · rw [if_pos hskip]
        exact hrec
      · rw [if_neg hskip]
        rw [hfalse (k0, p0) (List.mem_cons_self _ _) hka]
        simp only [Option.bind_eq_bind, Option.some_bind, Option.bind_some,
          Bool.false_eq_true, reduceIte]
        exact hrec

theorem mem_enum_spec (rooms : List Polygon) :
    ∀ q ∈ rooms.enum, ∃ h : q.1 < rooms.length, q.2 = rooms[q.1] := by
  intro q hq
  obtain ⟨i, p⟩ := q
  have hget := List.mk_mem_enum_iff_getElem?.mp hq
  have hi : i < rooms.length := by
    by_contra hcon
    rw [List.getElem?_eq_none (by omega)] at hget
    cases hget
  refine ⟨hi, ?_⟩
  rw [List.getElem?_eq_getElem hi] at hget
  exact (Option.some_inj.mp hget).symm

theorem find_room_WF (rooms : List Polygon) (st st2 : FixtureState) (v : Point)
    (hwf : FixtureWF rooms st) (h : find_room_ rooms st v = some st2) :
    FixtureWF rooms st2 := by
  rw [find_room_] at h
  cases h1 : findRoomLoop1 v st.roomsAssoc with
  | none => rw [h1] at h; cases h
  | some r1 =>
    rw [h1] at h
    simp only [Option.bind_eq_bind, Option.some_bind, Option.bind_some] at h
    cases r1 with
    | some kp =>
      obtain ⟨k, kpoly⟩ := kp
      cases h
      obtain ⟨en, hen, hidx, hpoly⟩ := findRoomLoop1_mem v st.roomsAssoc k
        kpoly h1
      subst hidx
      subst hpoly
      obtain ⟨hb, hp⟩ := hwf en hen
      exact FixtureWF_add_room rooms st en.roomIdx en.poly v hwf hb hp
    | none =>
      cases h2 : findRoomLoop2 st v rooms.enum with
      | none => rw [h2] at h; cases h
      | some r2 =>
        rw [h2] at h
        simp only [Option.bind_eq_bind, Option.some_bind, Option.bind_some] at h
        cases r2 with
        | some kp =>
          obtain ⟨k, kpoly⟩ := kp
          cases h
          have hmem := findRoomLoop2_mem st v rooms.enum k kpoly h2
          obtain ⟨hb, hp⟩ := mem_enum_spec rooms (k, kpoly) hmem
          exact FixtureWF_add_room rooms st k kpoly v hwf hb hp
        | none =>
          cases h
          exact hwf

theorem find_room_mono (rooms : List Polygon) (st st2 : FixtureState)
    (v : Point) (h : find_room_ rooms st v = some st2) (k : ℕ) :
    (KeyIn st k → KeyIn st2 k) ∧
    (k ∈ st.roomFixtures → k ∈ st2.roomFixtures) := by
  rw [find_room_] at h
  cases h1 : findRoomLoop1 v st.roomsAssoc with
  | none => rw [h1] at h; cases h
  | some r1 =>
    rw [h1] at h
    simp only [Option.bind_eq_bind, Option.some_bind, Option.bind_some] at h
    cases r1 with
    | some kp =>
      obtain ⟨k0, kpoly⟩ := kp
      cases h
      exact ⟨KeyIn_add_room_mono st k0 kpoly v k,
        fixtures_add_room_mono st k0 kpoly v k⟩
    | none =>
      cases h2 : findRoomLoop2 st v rooms.enum with
      | none => rw [h2] at h; cases h
      | some r2 =>
        rw [h2] at h
        simp only [Option.bind_eq_bind, Option.some_bind, Option.bind_some] at h
        cases r2 with
        | some kp =>
          obtain ⟨k0, kpoly⟩ := kp
          cases h
          exact ⟨KeyIn_add_room_mono st k0 kpoly v k,
            fixtures_add_room_mono st k0 kpoly v k⟩
        | none =>
          cases h
          exact ⟨id, id⟩

theorem find_room_establishes (rooms : List Polygon) (a : ℕ) (u : Point)
    (ha : a < rooms.length)
    (hua : ∀ (k : ℕ) (hk : k < rooms.length),
      (rooms[k]).contains_point u = some (decide (k = a)))
    (st st2 : FixtureState) (hwf : FixtureWF rooms st)
    (h : find_room_ rooms st u = some st2) :
    KeyIn st2 a ∧ a ∈ st2.roomFixtures := by
  have hentries : ∀ en ∈ st.roomsAssoc,
      en.poly.contains_point u = some (decide (en.roomIdx = a)) := by
    intro en hen
    obtain ⟨hk, hp⟩ := hwf en hen
    rw [hp]
    exact hua en.roomIdx hk
  rw [find_room_] at h
  by_cases hkey : KeyIn st a
  · have hex : ∃ en ∈ st.roomsAssoc, en.roomIdx = a := by
      rw [KeyIn, List.any_eq_true] at hkey
      obtain ⟨en, hen, hd⟩ := hkey
      exact ⟨en, hen, of_decide_eq_true hd⟩
    obtain ⟨p, hp⟩ := findRoomLoop1_finds u a st.roomsAssoc hentries hex
    rw [hp] at h
    simp only [Option.bind_eq_bind, Option.some_bind, Option.bind_some] at h
    cases h
    exact ⟨KeyIn_add_room_self st a p u, fixtures_add_room_self st a p u⟩
  · have hne : ∀ en ∈ st.roomsAssoc, en.roomIdx ≠ a := by
      intro en hen hcon
      apply hkey
      rw [KeyIn, List.any_eq_true]
      exact ⟨en, hen, decide_eq_true hcon⟩
    rw [findRoomLoop1_none u a st.roomsAssoc hentries hne] at h
    simp only [Option.bind_eq_bind, Option.some_bind, Option.bind_some] at h
    have hfind : findRoomLoop2 st u rooms.enum = some (some (a, rooms[a])) := by
      refine findRoomLoop2_finds st u a (rooms[a]) hkey rooms.enum ?_ ?_ ?_ ?_
      · intro q hq hqa
        obtain ⟨hb, hp⟩ := mem_enum_spec rooms q hq
        rw [hp, hua q.1 hb, decide_eq_false hqa]
      · intro q hq hqa
        obtain ⟨hb, hp⟩ := mem_enum_spec rooms q hq
        rw [hp]
        congr
      · rw [hua a ha, decide_eq_true rfl]
      · exact List.mk_mem_enum_iff_getElem?.mpr (List.getElem?_eq_getElem ha)
    rw [hfind] at h
    simp only [Option.bind_eq_bind, Option.some_bind, Option.bind_some] at h
    cases h
    exact ⟨KeyIn_add_room_self st a _ u, fixtures_add_room_self st a _ u⟩

theorem fixGo_append (rooms : List Polygon) :
    ∀ (xs ys : List Point) (st : FixtureState),
      find_rooms.go rooms (xs ++ ys) st =
        (find_rooms.go rooms xs st).bind (find_rooms.go rooms ys)
  | [], ys, st => by
    rw [List.nil_append, find_rooms.go]
    rfl
  | x :: xs, ys, st => by
    rw [List.cons_append, find_rooms.go, find_rooms.go]
    cases hfr : find_room_ rooms st x with
    | none => rfl
    | some st2 =>
      simp only [Option.bind_eq_bind, Option.some_bind, Option.bind_some]
      exact fixGo_append rooms xs ys st2

theorem fixGo_WF (rooms : List Polygon) :
    ∀ (xs : List Point) (st st2 : FixtureState), FixtureWF rooms st →
      find_rooms.go rooms xs st = some st2 → FixtureWF rooms st2
  | [], st, st2, hwf, h => by
    rw [find_rooms.go] at h
    cases h
    exact hwf
  | x :: xs, st, st2, hwf, h => by
    rw [find_rooms.go] at h
    cases hfr : find_room_ rooms st x with
    | none => rw [hfr] at h; cases h
    | some st1 =>
      rw [hfr] at h
      simp only [Option.bind_eq_bind, Option.some_bind, Option.bind_some] at h
      exact fixGo_WF rooms xs st1 st2 (find_room_WF rooms st st1 x hwf hfr) h

theorem fixGo_mono (rooms : List Polygon) :
    ∀ (xs : List Point) (st st2 : FixtureState) (k : ℕ),
      find_rooms.go rooms xs st = some st2 →
      (KeyIn st k → KeyIn st2 k) ∧
      (k ∈ st.roomFixtures → k ∈ st2.roomFixtures)
  | [], st, st2, k, h => by
    rw [find_rooms.go] at h
    cases h
    exact ⟨id, id⟩
  | x :: xs, st, st2, k, h => by
    rw [find_rooms.go] at h
    cases hfr : find_room_ rooms st x with
    | none => rw [hfr] at h; cases h
    | some st1 =>
      rw [hfr] at h
      simp only [Option.bind_eq_bind, Option.some_bind, Option.bind_some] at h
      have h1 := find_room_mono rooms st st1 x hfr k
      have h2 := fixGo_mono rooms xs st1 st2 k h
      exact ⟨fun hk => h2.1 (h1.1 hk), fun hf => h2.2 (h1.2 hf)⟩

theorem find_rooms_establishes (rooms : List Polygon) (fpoly : Polygon)
    (a : ℕ) (u : Point) (ha : a < rooms.length)
    (hua : ∀ (k : ℕ) (hk : k < rooms.length),
      (rooms[k]).contains_point u = some (decide (k = a)))
    (hu : u ∈ fpoly.vertices) (st' : FixtureState)
    (hrun : find_rooms fpoly rooms ⟨[], []⟩ = some st') :
    KeyIn st' a ∧ a ∈ st'.roomFixtures := by
  obtain ⟨l1, l2, hsplit⟩ := List.mem_iff_append.mp hu
  rw [find_rooms, hsplit, fixGo_append] at hrun
  cases hgo1 : find_rooms.go rooms l1 ⟨[], []⟩ with
  | none => rw [hgo1] at hrun; cases hrun
  | some st1 =>
    rw [hgo1] at hrun
    simp only [Option.bind_eq_bind, Option.some_bind, Option.bind_some] at hrun
    rw [find_rooms.go] at hrun
    cases hfr : find_room_ rooms st1 u with
    | none => rw [hfr] at hrun; cases hrun
    | some st2 =>
      rw [hfr] at hrun
      simp only [Option.bind_eq_bind, Option.some_bind, Option.bind_some] at hrun
      have hwf0 : FixtureWF rooms ⟨[], []⟩ := by
        intro en hen
        cases hen
      have hwf1 := fixGo_WF rooms l1 ⟨[], []⟩ st1 hwf0 hgo1
      obtain ⟨hk2, hf2⟩ := find_room_establishes rooms a u ha hua st1 st2
        hwf1 hfr
      have hmono := fixGo_mono rooms l2 st2 st' a hrun
      exact ⟨hmono.1 hk2, hmono.2 hf2⟩

/-- C8: a Fixture with one vertex inside Room `a` only and another vertex
inside Room `b` only ends associated with both rooms (both appear among
the keys of its `rooms` dict), and the Fixture is added to both Rooms'
`fixtures` sets. -/
theorem c8_fixture_spanning_two_rooms (rooms : List Polygon) (fpoly : Polygon)
    (a b : ℕ) (u w : Point) (ha : a < rooms.length) (hb : b < rooms.length)
    (hua : ∀ (k : ℕ) (hk : k < rooms.length),
      (rooms[k]).contains_point u = some (decide (k = a)))
    (hwb : ∀ (k : ℕ) (hk : k < rooms.length),
      (rooms[k]).contains_point w = some (decide (k = b)))
    (hu : u ∈ fpoly.vertices) (hw : w ∈ fpoly.vertices) (st' : FixtureState)
    (hrun : find_rooms fpoly rooms ⟨[], []⟩ = some st') :
    KeyIn st' a ∧ KeyIn st' b ∧
    a ∈ st'.roomFixtures ∧ b ∈ st'.roomFixtures := by
  obtain ⟨hka, hfa⟩ := find_rooms_establishes rooms fpoly a u ha hua hu st' hrun
  obtain ⟨hkb, hfb⟩ := find_rooms_establishes rooms fpoly b w hb hwb hw st' hrun
  exact ⟨hka, hkb, hfa, hfb⟩

/-- Witness for C8: a fixture with vertices `(1,1)` and `(5,1)`, the first
inside only the room `[0,2]x[0,2]` (index 0) and the second inside only
the room `[4,6]x[0,2]` (index 1), ends associated with both rooms and in
both rooms' fixtures sets. -/
theorem c8_fixture_spanning_two_rooms_witness :
    KeyIn ((find_rooms ⟨[⟨1, 1⟩, ⟨5, 1⟩]⟩
        [⟨[⟨0, 0⟩, ⟨2, 0⟩, ⟨2, 2⟩, ⟨0, 2⟩]⟩, ⟨[⟨4, 0⟩, ⟨6, 0⟩, ⟨6, 2⟩, ⟨4, 2⟩]⟩]
        ⟨[], []⟩).getD ⟨[], []⟩) 0 ∧
    KeyIn ((find_rooms ⟨[⟨1, 1⟩, ⟨5, 1⟩]⟩
        [⟨[⟨0, 0⟩, ⟨2, 0⟩, ⟨2, 2⟩, ⟨0, 2⟩]⟩, ⟨[⟨4, 0⟩, ⟨6, 0⟩, ⟨6, 2⟩, ⟨4, 2⟩]⟩]
        ⟨[], []⟩).getD ⟨[], []⟩) 1 ∧
    0 ∈ ((find_rooms ⟨[⟨1, 1⟩, ⟨5, 1⟩]⟩
        [⟨[⟨0, 0⟩, ⟨2, 0⟩, ⟨2, 2⟩, ⟨0, 2⟩]⟩, ⟨[⟨4, 0⟩, ⟨6, 0⟩, ⟨6, 2⟩, ⟨4, 2⟩]⟩]
        ⟨[], []⟩).getD ⟨[], []⟩).roomFixtures ∧
    1 ∈ ((find_rooms ⟨[⟨1, 1⟩, ⟨5, 1⟩]⟩
        [⟨[⟨0, 0⟩, ⟨2, 0⟩, ⟨2, 2⟩, ⟨0, 2⟩]⟩, ⟨[⟨4, 0⟩, ⟨6, 0⟩, ⟨6, 2⟩, ⟨4, 2⟩]⟩]
        ⟨[], []⟩).getD ⟨[], []⟩).roomFixtures := by
  have hrun : find_rooms ⟨[⟨1, 1⟩, ⟨5, 1⟩]⟩
      [⟨[⟨0, 0⟩, ⟨2, 0⟩, ⟨2, 2⟩, ⟨0, 2⟩]⟩, ⟨[⟨4, 0⟩, ⟨6, 0⟩, ⟨6, 2⟩, ⟨4, 2⟩]⟩]
      ⟨[], []⟩ = some ((find_rooms ⟨[⟨1, 1⟩, ⟨5, 1⟩]⟩
        [⟨[⟨0, 0⟩, ⟨2, 0⟩, ⟨2, 2⟩, ⟨0, 2⟩]⟩, ⟨[⟨4, 0⟩, ⟨6, 0⟩, ⟨6, 2⟩, ⟨4, 2⟩]⟩]
        ⟨[], []⟩).getD ⟨[], []⟩) := by
    with_unfolding_all decide
  refine c8_fixture_spanning_two_rooms _ _ 0 1 ⟨1, 1⟩ ⟨5, 1⟩ (by decide)
    (by decide) ?_ ?_ (by with_unfolding_all decide)
    (by with_unfolding_all decide) _ hrun
  · intro k hk
    have hk2 : k < 2 := by simpa using hk
    interval_cases k
    · simp only [List.getElem_cons_zero]
      with_unfolding_all decide
    · simp only [List.getElem_cons_succ, List.getElem_cons_zero]
      with_unfolding_all decide
  · intro k hk
    have hk2 : k < 2 := by simpa using hk
    interval_cases k
    · simp only [List.getElem_cons_zero]
      with_unfolding_all decide
    · simp only [List.getElem_cons_succ, List.getElem_cons_zero]
      with_unfolding_all decide
